import Mathlib

/-!
Shallow embedding of the OrgLang runtime CORE (src/pkg/runtime) and of the
generated-code header (src/internal/codegen/orglang_header.h), with theorems
settling the specification claims.

Modelling conventions:
* `OrgValue` (a tagged 64-bit word) is modelled by the inductive `Org.OrgVal`;
  heap pointers are replaced by the pointed-to object's contents.
* GMP `mpz_t` is modelled by `Int`; `mpq_t` by a pair `Int × Int`
  (numerator, denominator).  GMP keeps every `mpq_t` canonical
  (`gcd(num,den)=1`, `den>0`); the raw cross-multiplication formulas
  followed by `qcanon` compute exactly the canonical representative GMP's
  `mpq_add`/`mpq_sub`/`mpq_mul`/`mpq_div` produce, since the canonical form
  of a rational number is unique.
* Arena allocation never fails in the model (failure paths returning the
  error sentinel on `arena_alloc == NULL` are therefore not taken).
* A C function that can fail to terminate (the runtime's unbounded probe
  loops) or that hits undefined behaviour (GMP division by zero) is
  modelled with result type `Option _`; `none` marks divergence / UB.
-/

namespace Org

/-- values.h ORG_SMALL_MAX: largest 62-bit signed immediate. -/
def SMALL_MAX : Int := 2 ^ 61 - 1

/-- values.h ORG_SMALL_MIN. -/
def SMALL_MIN : Int := -(2 ^ 61)

/-- values.h org_small_fits: n fits the 62-bit immediate range. -/
def org_small_fits (n : Int) : Bool :=
  decide (SMALL_MIN ≤ n) && decide (n ≤ SMALL_MAX)

/-- Model of values.h OrgValue.  The low-tag dispatch (pointer / small /
special) becomes constructor dispatch; heap objects carry their contents.
A table's slot array is a list of (key, value, cached hash) triples,
together with the `count` and `next_index` header fields. -/
inductive OrgVal where
  | small (n : Int)
  | bigintV (z : Int)
  | rationalV (num den : Int)
  | decimalV (num den : Int) (scale : Int)
  | strV (bytes : List Nat)
  | tableV (slots : List (OrgVal × OrgVal × Nat)) (count : Nat) (nextIndex : Nat)
  | boolT
  | boolF
  | errorV
  | unusedV

/-- ORG_IS_ERROR. -/
def isError : OrgVal → Bool
  | .errorV => true
  | _ => false

/-- ORG_IS_UNUSED. -/
def isUnused : OrgVal → Bool
  | .unusedV => true
  | _ => false

/-- ORG_IS_SMALL. -/
def isSmall : OrgVal → Bool
  | .small _ => true
  | _ => false

/-- ORG_IS_PTR && org_get_type == ORG_TYPE_BIGINT. -/
def isBig : OrgVal → Bool
  | .bigintV _ => true
  | _ => false

/-- values.h org_is_integer. -/
def org_is_integer (v : OrgVal) : Bool := isSmall v || isBig v

/-- values.h ORG_IS_PTR && org_get_type == ORG_TYPE_TABLE. -/
def isTable : OrgVal → Bool
  | .tableV _ _ _ => true
  | _ => false

/-- values.h ORG_UNTAG_SMALL_INT (only meaningful under ORG_IS_SMALL). -/
def untag_small : OrgVal → Int
  | .small n => n
  | _ => 0

/-- ops.c NumCat. -/
inductive NumCat where
  | NSMALL | NBIG | NRAT | NDEC | NNONE
deriving DecidableEq

/-- ops.c num_category. -/
def num_category : OrgVal → NumCat
  | .small _ => .NSMALL
  | .bigintV _ => .NBIG
  | .rationalV _ _ => .NRAT
  | .decimalV _ _ _ => .NDEC
  | _ => .NNONE

/-- Category is SMALL or BIGINT (the integer test used in the dispatch). -/
def isIntCat : NumCat → Bool
  | .NSMALL => true
  | .NBIG => true
  | _ => false

/-- ops.c to_mpz: read any integer (small or big) as an mpz value.  Only
called on integer categories; other values give the fresh-mpz default 0. -/
def to_mpz : OrgVal → Int
  | .small n => n
  | .bigintV z => z
  | _ => 0

/-- ops.c to_mpq: read any numeric as an mpq value (num, den).  The default
branch leaves the freshly initialised mpq at 0/1, exactly as the C does. -/
def to_mpq : OrgVal → Int × Int
  | .small n => (n, 1)
  | .bigintV z => (z, 1)
  | .rationalV n d => (n, d)
  | .decimalV n d _ => (n, d)
  | _ => (0, 1)

/-- ops.c get_scale: only decimals carry a scale, everything else reads 0. -/
def get_scale : OrgVal → Int
  | .decimalV _ _ s => s
  | _ => 0

/-- GMP mpq_canonicalize: divide by the gcd and make the denominator
positive.  (GMP is undefined for den = 0; the model returns the input.) -/
def qcanon : Int × Int → Int × Int
  | (n, d) =>
    if d = 0 then (n, d)
    else if d / (Int.gcd n d : Int) < 0 then
      (-(n / (Int.gcd n d : Int)), -(d / (Int.gcd n d : Int)))
    else (n / (Int.gcd n d : Int), d / (Int.gcd n d : Int))

/-- GMP mpq_add (result canonical, see the header comment). -/
def qadd (a b : Int × Int) : Int × Int :=
  qcanon (a.1 * b.2 + b.1 * a.2, a.2 * b.2)

/-- GMP mpq_sub. -/
def qsub (a b : Int × Int) : Int × Int :=
  qcanon (a.1 * b.2 - b.1 * a.2, a.2 * b.2)

/-- GMP mpq_mul. -/
def qmul (a b : Int × Int) : Int × Int :=
  qcanon (a.1 * b.1, a.2 * b.2)

/-- GMP mpq_div. -/
def qdiv (a b : Int × Int) : Int × Int :=
  qcanon (a.1 * b.2, a.2 * b.1)

/-- ops.c wrap_mpz: normalize an mpz result — immediate small integer when
it fits 62 bits (mpz_fits_slong_p plus org_small_fits; the 62-bit range is
inside the slong range, so the conjunction is just org_small_fits),
otherwise a heap BigInt. -/
def wrap_mpz (z : Int) : OrgVal :=
  if org_small_fits z then .small z else .bigintV z

/-- ops.c wrap_mpq_rational: a denominator-1 result is rewrapped as an
integer, otherwise a heap Rational is built. -/
def wrap_mpq_rational (q : Int × Int) : OrgVal :=
  if q.2 = 1 then wrap_mpz q.1 else .rationalV q.1 q.2

/-- ops.c wrap_mpq_decimal. -/
def wrap_mpq_decimal (q : Int × Int) (scale : Int) : OrgVal :=
  .decimalV q.1 q.2 scale

/-- Common slow path shared (textually repeated) by org_add, org_sub and
org_mul in ops.c: error propagation, category dispatch, integer path,
decimal path with a scale rule, rational path. -/
def binSlow (zf : Int → Int → Int) (qf : Int × Int → Int × Int → Int × Int)
    (sc : Int → Int → Int) (a b : OrgVal) : OrgVal :=
  if isError a || isError b then .errorV
  else if num_category a = .NNONE ∨ num_category b = .NNONE then .errorV
  else if isIntCat (num_category a) && isIntCat (num_category b) then
    wrap_mpz (zf (to_mpz a) (to_mpz b))
  else if num_category a = .NDEC ∨ num_category b = .NDEC then
    wrap_mpq_decimal (qf (to_mpq a) (to_mpq b)) (sc (get_scale a) (get_scale b))
  else wrap_mpq_rational (qf (to_mpq a) (to_mpq b))

/-- ops.c org_add.  The small/small fast path uses a checked add; an int64
overflow or a 62-bit overflow both continue into the exact mpz path, whose
result is wrap_mpz of the exact sum — so the fast path is equivalent to
testing org_small_fits on the exact sum. -/
def org_add (a b : OrgVal) : OrgVal :=
  if isSmall a && isSmall b then
    if org_small_fits (untag_small a + untag_small b) then
      .small (untag_small a + untag_small b)
    else wrap_mpz (untag_small a + untag_small b)
  else binSlow (· + ·) qadd (fun s t => max s t) a b

/-- ops.c org_sub. -/
def org_sub (a b : OrgVal) : OrgVal :=
  if isSmall a && isSmall b then
    if org_small_fits (untag_small a - untag_small b) then
      .small (untag_small a - untag_small b)
    else wrap_mpz (untag_small a - untag_small b)
  else binSlow (· - ·) qsub (fun s t => max s t) a b

/-- ops.c org_mul. -/
def org_mul (a b : OrgVal) : OrgVal :=
  if isSmall a && isSmall b then
    if org_small_fits (untag_small a * untag_small b) then
      .small (untag_small a * untag_small b)
    else wrap_mpz (untag_small a * untag_small b)
  else binSlow (· * ·) qmul (fun s t => s + t) a b

/-- ORG_IS_SMALL(b) && untag == 0. -/
def isSmallZero : OrgVal → Bool
  | .small n => decide (n = 0)
  | _ => false

/-- b is a heap BigInt whose mpz sign is 0. -/
def isBigZero : OrgVal → Bool
  | .bigintV z => decide (z = 0)
  | _ => false

/-- The decimal-division result scale from org_div: scale(a), else
scale(b), else 1. -/
def div_scale (sa sb : Int) : Int :=
  if sa = 0 then (if sb = 0 then 1 else sb) else sa

/-- ops.c org_div.  mpz_tdiv_qr truncates toward zero, i.e. Int.tdiv and
Int.tmod; the inexact branch builds za/zb as an mpq and canonicalizes. -/
def org_div (a b : OrgVal) : OrgVal :=
  if isError a || isError b then .errorV
  else if isSmallZero b then .errorV
  else if isBigZero b then .errorV
  else if num_category a = .NNONE ∨ num_category b = .NNONE then .errorV
  else if isIntCat (num_category a) && isIntCat (num_category b) then
    if (to_mpz a).tmod (to_mpz b) = 0 then wrap_mpz ((to_mpz a).tdiv (to_mpz b))
    else wrap_mpq_rational (qdiv (to_mpz a, 1) (to_mpz b, 1))
  else if num_category a = .NDEC ∨ num_category b = .NDEC then
    if (to_mpq b).1 = 0 then .errorV
    else
      wrap_mpq_decimal (qdiv (to_mpq a) (to_mpq b))
        (div_scale (get_scale a) (get_scale b))
  else
    if (to_mpq b).1 = 0 then .errorV
    else wrap_mpq_rational (qdiv (to_mpq a) (to_mpq b))

/-- ops.c org_mod.  The zero-divisor guard only covers a small-integer
divisor; when the divisor is a BigInt holding zero the C calls mpz_mod
with a zero divisor, which is a GMP division-by-zero trap — modelled as
`none`.  The small fast path is C's `%` (truncated, Int.tmod); the mpz
slow path is GMP mpz_mod, whose result is always non-negative (Int.emod). -/
def org_mod (a b : OrgVal) : Option OrgVal :=
  if isError a || isError b then some .errorV
  else if !(isIntCat (num_category a) && isIntCat (num_category b)) then some .errorV
  else if isSmallZero b then some .errorV
  else if isSmall a && isSmall b then
    some (.small ((untag_small a).tmod (untag_small b)))
  else if to_mpz b = 0 then none
  else some (wrap_mpz ((to_mpz a).emod (to_mpz b)))

/-- ops.c org_pow.  The exponent must be a non-negative integer fitting an
unsigned long (a small always fits; a BigInt is additionally checked with
mpz_fits_ulong_p, modelled as < 2^64). -/
def org_pow (base exp : OrgVal) : OrgVal :=
  if isError base || isError exp then .errorV
  else if !(org_is_integer exp) then .errorV
  else if to_mpz exp < 0 then .errorV
  else if isBig exp && decide (2 ^ 64 ≤ to_mpz exp) then .errorV
  else
    match num_category base with
    | .NNONE => .errorV
    | .NSMALL => wrap_mpz (to_mpz base ^ (to_mpz exp).toNat)
    | .NBIG => wrap_mpz (to_mpz base ^ (to_mpz exp).toNat)
    | .NRAT =>
      wrap_mpq_rational
        (qcanon ((to_mpq base).1 ^ (to_mpz exp).toNat,
                 (to_mpq base).2 ^ (to_mpz exp).toNat))
    | .NDEC =>
      wrap_mpq_decimal
        (qcanon ((to_mpq base).1 ^ (to_mpz exp).toNat,
                 (to_mpq base).2 ^ (to_mpz exp).toNat))
        (get_scale base * ((to_mpz exp).toNat : Int))

/-- ops.c org_neg (rational and decimal branches use mpq_neg then wrap). -/
def org_neg (a : OrgVal) : OrgVal :=
  if isError a then .errorV
  else if isSmall a then
    if org_small_fits (-(untag_small a)) then .small (-(untag_small a))
    else wrap_mpz (-(untag_small a))
  else
    match num_category a with
    | .NNONE => .errorV
    | .NBIG => wrap_mpz (-(to_mpz a))
    | .NDEC => wrap_mpq_decimal (-(to_mpq a).1, (to_mpq a).2) (get_scale a)
    | _ => wrap_mpq_rational (-(to_mpq a).1, (to_mpq a).2)

/-- values.c org_make_bigint_si: builds a heap BigInt from an int64,
with no attempt to normalize small values back to immediates. -/
def org_make_bigint_si (n : Int) : OrgVal := .bigintV n

/-- values.c org_make_rational_str, after the two decimal strings have been
parsed to integers: set num and den, then mpq_canonicalize.  The result is
returned as a Rational even when the canonical denominator is 1. -/
def org_make_rational (num den : Int) : OrgVal :=
  .rationalV (qcanon (num, den)).1 (qcanon (num, den)).2

/-! ## The generated-code surface (src/internal/codegen/orglang_header.h)

The header's OrgValue is a different, string-based representation: INT and
DEC carry their decimal numeral in str_val, STR carries bytes, LIST/PAIR
carry item vectors, ERROR carries nothing.  Numerals are modelled by the
integer they denote (the generated code always produces canonical decimal
numerals, so strcmp equality on INT keys is numeric equality and atoll
recovers the integer). -/

/-- Model of the header's OrgValue struct (the constructors the dispatched
pure operators can distinguish; FUNC / RESOURCE / INSTANCE / ITERATOR
payloads are opaque to every operator modelled here). -/
inductive HVal where
  | hint (n : Int)
  | hdec (ip : Int)
  | hstr (bytes : List Nat)
  | hlist (items : List HVal)
  | hpair (k v : HVal)
  | hfunc
  | hres
  | hinst
  | hiter
  | herr

/-- orglang_header.h org_value_to_long: atoll on INT/DEC numerals (for DEC
the integer part), strlen on strings, size on lists, 0 for everything
else — including the ERROR value, which therefore reads as 0. -/
def h_to_long : HVal → Int
  | .hint n => n
  | .hdec ip => ip
  | .hstr s => (s.length : Int)
  | .hlist items => (items.length : Int)
  | _ => 0

/-- orglang_header.h org_key_match: same type, STR or INT, strcmp equal. -/
def h_key_match : HVal → HVal → Bool
  | .hint a, .hint b => decide (a = b)
  | .hstr s, .hstr t => decide (s = t)
  | _, _ => false

/-- First pass of the header's org_table_get: scan for a PAIR whose key
matches. -/
def h_pair_get : List HVal → HVal → Option HVal
  | [], _ => none
  | .hpair k v :: rest, key =>
    if h_key_match k key then some v else h_pair_get rest key
  | _ :: rest, key => h_pair_get rest key

/-- Second pass of the header's org_table_get: positional lookup over the
non-PAIR items, counting from cur. -/
def h_index_get : List HVal → Int → Int → Option HVal
  | [], _, _ => none
  | .hpair _ _ :: rest, target, cur => h_index_get rest target cur
  | it :: rest, target, cur =>
    if cur = target then some it else h_index_get rest target (cur + 1)

/-- orglang_header.h org_table_get: key-value scan, then index fallback;
NULL (none) on a non-list receiver or a miss. -/
def h_table_get (table key : HVal) : Option HVal :=
  match table with
  | .hlist items =>
    match h_pair_get items key with
    | some v => some v
    | none => h_index_get items (h_to_long key) 0
  | _ => none

/-- orglang_header.h org_bool: booleans are the INT numerals 1 and 0. -/
def h_bool (b : Bool) : HVal := .hint (if b then 1 else 0)

/-- The header's "**": (long long)pow((double)l,(double)r).  Modelled as the
exact integer power for non-negative exponents; a negative exponent yields
a magnitude below 1 that the cast truncates (so 0, except for base ±1).
Double rounding above 2^53 is not modelled; no claim depends on "**". -/
def c_pow_ll (l r : Int) : Int :=
  if r < 0 then
    if l = 1 then 1 else if l = -1 then (if r % 2 = 0 then 1 else -1) else 0
  else l ^ r.toNat

/-- The header's "<<" on long long (defined-behaviour range). -/
def c_shl (l r : Int) : Int := l * 2 ^ r.toNat

/-- The header's ">>" on long long: arithmetic shift, i.e. floor division
by a power of two. -/
def c_shr (l r : Int) : Int := Int.fdiv l (2 ^ r.toNat)

/-- left->type == ORG_ERROR_TYPE. -/
def isHErr : HVal → Bool
  | .herr => true
  | _ => false

/-- The elvis operator's falsy test from org_op_infix: ERROR, the INT 0,
the empty string, or the empty list. -/
def h_falsy (v : HVal) : Bool :=
  match v with
  | .herr => true
  | .hint n => decide (n = 0)
  | .hstr s => decide (s.length = 0)
  | .hlist items => decide (items.length = 0)
  | _ => false

/-- orglang_header.h org_op_infix, for every operator after the flow
operator's early branch ("->" builds iterators or spawns scheduler tasks;
its pump/sink machinery is modelled by the Sched definitions below, and
this function answers none for it).  Note that the arithmetic block reads
both operands through org_value_to_long with no ERROR-sentinel check, so
an ERROR operand is silently read as 0.  The boolean "&"/"|"/"^" branches
late in the chain are dead code (the bitwise branches match first), kept
here in position.  none models a C NULL result. -/
def org_infix_op (op : String) (left right : HVal) : Option HVal :=
  if op = "->" then none
  else
    let l := h_to_long left
    let r := h_to_long right
    if op = "+" then some (.hint (l + r))
    else if op = "-" then some (.hint (l - r))
    else if op = "*" then some (.hint (l * r))
    else if op = "**" then some (.hint (c_pow_ll l r))
    else if op = "&" then some (.hint (Int.land l r))
    else if op = "|" then some (.hint (Int.lor l r))
    else if op = "^" then some (.hint (Int.xor l r))
    else if op = "<<" then some (.hint (c_shl l r))
    else if op = ">>" then some (.hint (c_shr l r))
    else if op = ">" then some (h_bool (decide (l > r)))
    else if op = "<" then some (h_bool (decide (l < r)))
    else if op = ">=" then some (h_bool (decide (l ≥ r)))
    else if op = "<=" then some (h_bool (decide (l ≤ r)))
    else if op = "=" then some (h_bool (decide (l = r)))
    else if op = "<>" then some (h_bool (decide (l ≠ r)))
    else if op = "." then h_table_get left right
    else if op = "?" then h_table_get right left
    else if op = "??" then
      if isHErr left then some right else some left
    else if op = "?:" then
      if h_falsy left then some right else some left
    else if op = "," then
      match left with
      | .hlist items => some (.hlist (items ++ [right]))
      | _ => some (.hlist [left, right])
    else if op = "&&" then some (h_bool (decide (l ≠ 0) && decide (r ≠ 0)))
    else if op = "||" then some (h_bool (decide (l ≠ 0) || decide (r ≠ 0)))
    else if op = "&" then some (h_bool (decide (l ≠ 0) && decide (r ≠ 0)))
    else if op = "|" then some (h_bool (decide (l ≠ 0) || decide (r ≠ 0)))
    else if op = "^" then some (h_bool (xor (decide (l ≠ 0)) (decide (r ≠ 0))))
    else if op = ":" then some (.hpair left right)
    else some left

/-! ## Scheduler (orglang_header.h org_sched_run / org_pump_task / org_sink_task)

A pump-to-sink pipeline over a source list: the ready queue is a FIFO of
tasks; the pump task holds a list iterator (source plus cursor) and the
sink; the sink task holds one value.  org_sched_run pops the head and runs
it until the queue drains.  The pump pulls one item (list_iterator_next
advances the cursor), retires on end-of-list or on the in-band "Error"
string, and otherwise spawns a sink task at the tail and then re-enqueues
itself at the tail.  The sink task hands its value to the sink's step; the
log below records those observations in order. -/

/-- The bytes of "Error", the in-band marker org_pump_task checks with
strcmp. -/
def errBytes : List Nat := [69, 114, 114, 111, 114]

/-- item->type == ORG_STR_TYPE && strcmp(item->str_val, "Error") == 0. -/
def isErrMarker : HVal → Bool
  | .hstr s => decide (s = errBytes)
  | _ => false

/-- The two task shapes org_op_infix spawns for a list-to-sink pipeline. -/
inductive STask where
  | pumpT
  | sinkT (v : HVal)

/-- Scheduler state: FIFO ready queue, the pump's list-iterator cursor, and
the sequence of values the sink's step has observed. -/
structure SchedState where
  queue : List STask
  cursor : Nat
  log : List HVal

/-- One org_sched_run iteration: pop the head fiber and run its resume
(org_pump_task or org_sink_task). -/
def schedStep (src : List HVal) (s : SchedState) : SchedState :=
  match s.queue with
  | [] => s
  | .pumpT :: rest =>
    match src.get? s.cursor with
    | none => { s with queue := rest }
    | some item =>
      if isErrMarker item then { s with queue := rest, cursor := s.cursor + 1 }
      else
        { s with
            queue := rest ++ [.sinkT item, .pumpT]
            cursor := s.cursor + 1 }
  | .sinkT v :: rest => { s with queue := rest, log := s.log ++ [v] }

/-- org_sched_run's event loop, fuelled (the loop runs while the ready
queue is non-empty; 2N+1 steps drain an N-element pipeline). -/
def schedRun (src : List HVal) : Nat → SchedState → SchedState
  | 0, s => s
  | fuel + 1, s =>
    if s.queue.isEmpty then s else schedRun src fuel (schedStep src s)

/-- The queue state org_op_infix leaves behind for `list -> sink`: a single
pump task, cursor 0, nothing observed yet. -/
def initPipeline : SchedState := { queue := [.pumpT], cursor := 0, log := [] }

/-! ## Arena allocator (src/pkg/runtime/core/arena.c)

A page is modelled by the absolute address of its data buffer, its
capacity, and its used offset; the arena holds its pages with the current
page at the head.  malloc is modelled by an explicit fresh base address
handed to arena_alloc for the slow path (the C computes everything from
these absolute addresses). -/

structure ArenaPage where
  base : Nat
  capacity : Nat
  used : Nat

structure ArenaSt where
  defaultPageSize : Nat
  pages : List ArenaPage

/-- arena.c align_up: round n up to a multiple of align.  The C writes
(n + align - 1) & ~(align - 1), which for a power-of-two align equals
rounding (n + align - 1) down to a multiple of align. -/
def align_up (n a : Nat) : Nat := (n + a - 1) - (n + a - 1) % a

/-- arena.c arena_alloc.  freshBase is the data-buffer address malloc
would hand the slow path's new page.  none models the C's NULL on a
page_new failure (never taken here: the model's malloc succeeds) — the
result is always `some` and carries the updated arena and the returned
pointer address. -/
def arena_alloc (ar : ArenaSt) (size align freshBase : Nat) :
    Option (ArenaSt × Nat) :=
  match ar.pages with
  | [] => none
  | page :: rest =>
    let base := page.base + page.used
    let aligned := align_up base align
    let padding := aligned - page.base
    if padding + size ≤ page.capacity then
      some ({ ar with pages := { page with used := padding + size } :: rest },
            aligned)
    else
      let newCapacity :=
        if size > ar.defaultPageSize / 2 then align_up size align
        else ar.defaultPageSize
      let newAligned := align_up freshBase align
      let newPadding := newAligned - freshBase
      some ({ ar with pages :=
                ⟨freshBase, newCapacity, newPadding + size⟩ :: page :: rest },
            newAligned)

/-- The spec's containment invariant: the block [ptr, ptr+size) lies
entirely inside one of the arena's pages. -/
def block_in_some_page (ar : ArenaSt) (ptr size : Nat) : Bool :=
  ar.pages.any (fun p => decide (p.base ≤ ptr) && decide (ptr + size ≤ p.base + p.capacity))

/-! ## Hash table (src/pkg/runtime/table/table.c)

Open addressing with linear probing.  A slot is (key, value, cached hash);
an empty slot's key is UNUSED.  Capacities are powers of two in every
table the runtime builds, so the C's `x & (capacity-1)` is written
`x % capacity` here.  The unbounded probe loops are fuelled with the
capacity; exhausting the fuel (none) models the C looping forever, which
the table invariant below rules out. -/

/-- A table slot: key, value, cached hash. -/
abbrev Slot := OrgVal × OrgVal × Nat

/-- alloc_entries initialises every slot to (UNUSED, UNUSED, 0). -/
def emptySlot : Slot := (.unusedV, .unusedV, 0)

/-- table.c fnv1a over the raw bytes (uint32 arithmetic). -/
def fnv1a (bytes : List Nat) : Nat :=
  bytes.foldl (fun h b => ((Nat.xor h (b % 256)) * 16777619) % 2 ^ 32) 2166136261

/-- One round of the integer key avalanche mix (uint64 arithmetic). -/
def mix64 (k : Nat) : Nat := ((Nat.xor k (k >>> 16)) * 0x45d9f3b) % 2 ^ 64

/-- table.c org_hash_value.  For a small-integer key the C mixes the
tagged 64-bit word ((n << 2) | 1 two's complement, i.e. (4n+1) mod 2^64);
for a String key it hashes the bytes; everything else hashes to 0. -/
def org_hash_value (key : OrgVal) : Nat :=
  match key with
  | .small n =>
    let k0 := ((4 * n + 1) % (2 : Int) ^ 64).toNat
    let k2 := mix64 (mix64 k0)
    (Nat.xor k2 (k2 >>> 16)) % 2 ^ 32
  | .strV bytes => fnv1a bytes
  | _ => 0

/-- table.c org_key_equal.  The C first compares the tagged words (equal
immediates and equal singletons match; heap pointers match only when they
are the same object) and then compares string contents.  Distinct heap
numerics are distinct objects, hence false here; strings compare by
content exactly as the C's second test does. -/
def org_key_equal : OrgVal → OrgVal → Bool
  | .small a, .small b => decide (a = b)
  | .strV s, .strV t => decide (s = t)
  | .boolT, .boolT => true
  | .boolF, .boolF => true
  | .errorV, .errorV => true
  | .unusedV, .unusedV => true
  | _, _ => false

/-- table.c is_valid_key: SmallInt or String. -/
def is_valid_key : OrgVal → Bool
  | .small _ => true
  | .strV _ => true
  | _ => false

/-- Slot occupancy (key not UNUSED). -/
def occSlot (s : Slot) : Bool := !(isUnused s.1)

/-- Occupancy read through an index (out of range counts as empty). -/
def occAt (slots : List Slot) (i : Nat) : Bool :=
  match slots.get? i with
  | some s => occSlot s
  | none => false

/-- Total slot read (out of range reads the empty slot). -/
def slotAt (slots : List Slot) (i : Nat) : Slot := slots.getD i emptySlot

/-- table.c find_slot's probe loop, fuelled.  Stops at the first UNUSED
slot or at a slot whose cached hash and key match. -/
def findSlotGo (slots : List Slot) (key : OrgVal) (h : Nat) :
    Nat → Nat → Option Nat
  | _, 0 => none
  | idx, fuel + 1 =>
    match slots.get? idx with
    | none => none
    | some s =>
      if isUnused s.1 then some idx
      else if s.2.2 = h && org_key_equal s.1 key then some idx
      else findSlotGo slots key h ((idx + 1) % slots.length) fuel

/-- table.c find_slot: probe from hash & mask with capacity fuel. -/
def find_slot (slots : List Slot) (key : OrgVal) (h : Nat) : Option Nat :=
  findSlotGo slots key h (h % slots.length) slots.length

/-- table.c org_table_get's probe loop (textually find_slot's loop with
the result interpreted in place): ERROR at an UNUSED slot, the stored
value at a match. -/
def tableGetGo (slots : List Slot) (key : OrgVal) (h : Nat) :
    Nat → Nat → Option OrgVal
  | _, 0 => none
  | idx, fuel + 1 =>
    match slots.get? idx with
    | none => none
    | some s =>
      if isUnused s.1 then some .errorV
      else if s.2.2 = h && org_key_equal s.1 key then some s.2.1
      else tableGetGo slots key h ((idx + 1) % slots.length) fuel

/-- s is a String with exactly these bytes (the header-free inline
comparison org_table_get_cstr does). -/
def strContentEq : OrgVal → List Nat → Bool
  | .strV s, name => decide (s = name)
  | _, _ => false

/-- table.c org_table_get_cstr's probe loop: like get, but compares the
raw name bytes against String slots in place. -/
def tableGetCstrGo (slots : List Slot) (name : List Nat) (h : Nat) :
    Nat → Nat → Option OrgVal
  | _, 0 => none
  | idx, fuel + 1 =>
    match slots.get? idx with
    | none => none
    | some s =>
      if isUnused s.1 then some .errorV
      else if s.2.2 = h && strContentEq s.1 name then some s.2.1
      else tableGetCstrGo slots name h ((idx + 1) % slots.length) fuel

/-- table.c table_grow's rehash loop over the old slots in index order:
every occupied entry is re-slotted (with its cached hash) into dst. -/
def growRehash (dst : List Slot) : List Slot → Option (List Slot)
  | [] => some dst
  | s :: rest =>
    if isUnused s.1 then growRehash dst rest
    else
      match find_slot dst s.1 s.2.2 with
      | none => none
      | some i => growRehash (dst.set i s) rest

/-- table.c table_grow: double the capacity and rehash. -/
def tableGrow (slots : List Slot) : Option (List Slot) :=
  growRehash (List.replicate (2 * slots.length) emptySlot) slots

/-- table.c org_table_set: non-table receiver or invalid key give ERROR;
the load factor is checked (and the table grown) before the insert;
count increments exactly when the found slot was UNUSED. -/
def org_table_set (tv key value : OrgVal) : Option OrgVal :=
  match tv with
  | .tableV slots count ni =>
    if !(is_valid_key key) then some .errorV
    else
      match (if (count + 1) * 100 > slots.length * 75
             then tableGrow slots else some slots) with
      | none => none
      | some slots1 =>
        let h := org_hash_value key
        match find_slot slots1 key h with
        | none => none
        | some i =>
          some (.tableV (slots1.set i (key, value, h))
            (if isUnused (slotAt slots1 i).1 then count + 1 else count) ni)
  | _ => some .errorV

/-- table.c org_table_push: key := next_index (an immediate integer),
next_index is incremented (uint32) before the set runs on the table. -/
def org_table_push (tv value : OrgVal) : Option OrgVal :=
  match tv with
  | .tableV slots count ni =>
    org_table_set (.tableV slots count ((ni + 1) % 2 ^ 32)) (.small (ni : Int)) value
  | _ => some .errorV

/-- table.c org_table_get. -/
def org_table_get (tv key : OrgVal) : Option OrgVal :=
  match tv with
  | .tableV slots _ _ =>
    if !(is_valid_key key) then some .errorV
    else
      let h := org_hash_value key
      tableGetGo slots key h (h % slots.length) slots.length
  | _ => some .errorV

/-- table.c org_table_get_cstr. -/
def org_table_get_cstr (tv : OrgVal) (name : List Nat) : Option OrgVal :=
  match tv with
  | .tableV slots _ _ =>
    let h := fnv1a name
    tableGetCstrGo slots name h (h % slots.length) slots.length
  | _ => some .errorV

/-- table.c org_table_has: FALSE exactly when get answers ERROR. -/
def org_table_has (tv key : OrgVal) : Option OrgVal :=
  (org_table_get tv key).map (fun v => if isError v then .boolF else .boolT)

/-- table.c org_table_count: the count header field; 0 for a non-table. -/
def org_table_count : OrgVal → Nat
  | .tableV _ c _ => c
  | _ => 0

/-- table.c org_table_new: initial capacity 8, empty. -/
def org_table_new : OrgVal := .tableV (List.replicate 8 emptySlot) 0 0

/-- A sequence of set operations applied to a fresh table. -/
def runSets (ops : List (OrgVal × OrgVal)) : Option OrgVal :=
  ops.foldlM (fun tv p => org_table_set tv p.1 p.2) org_table_new

/-! ## Specification-level predicates used by the theorems -/

/-- A canonical mpq pair: coprime, positive denominator (GMP's invariant
for every mpq_t it hands out). -/
def canonicalPair (q : Int × Int) : Prop := Int.gcd q.1 q.2 = 1 ∧ 0 < q.2

/-- Well-formedness of the numeric heap payloads: every Rational or
Decimal the runtime stores holds a canonical mpq. -/
def wfNum : OrgVal → Prop
  | .rationalV n d => Int.gcd n d = 1 ∧ 0 < d
  | .decimalV n d _ => Int.gcd n d = 1 ∧ 0 < d
  | _ => True

/-- The t-th index of the linear probe sequence starting at home. -/
def probeIdx (len home t : Nat) : Nat := (home + t) % len

/-- Circular distance from home to i (the probe offset that reaches i). -/
def probeDist (len home i : Nat) : Nat := (i + len - home) % len

/-- The probe loop's stop condition at index i: an UNUSED slot, or a slot
whose cached hash is h and whose key matches. -/
def stopAt (slots : List Slot) (key : OrgVal) (h i : Nat) : Bool :=
  match slots.get? i with
  | none => false
  | some s => isUnused s.1 || (decide (s.2.2 = h) && org_key_equal s.1 key)

/-- Slot i's probe chain is unbroken: every index between its home
position (cached hash mod capacity) and i is occupied. -/
def chainAt (slots : List Slot) (i : Nat) : Prop :=
  ∀ t, t < probeDist slots.length ((slotAt slots i).2.2 % slots.length) i →
    occAt slots (probeIdx slots.length ((slotAt slots i).2.2 % slots.length) t) = true

/-- The hash table representation invariant: positive capacity, count is
the number of occupied slots and stays below capacity, every occupied
slot holds a valid key with its correct cached hash and an unbroken probe
chain, and occupied keys are pairwise distinct. -/
def Inv (slots : List Slot) (count : Nat) : Prop :=
  0 < slots.length ∧
  count = slots.countP occSlot ∧
  count < slots.length ∧
  (∀ i, i < slots.length → occAt slots i = true →
    is_valid_key (slotAt slots i).1 = true ∧
    (slotAt slots i).2.2 = org_hash_value (slotAt slots i).1 ∧
    chainAt slots i) ∧
  (∀ i, i < slots.length → ∀ j, j < slots.length → i ≠ j →
    occAt slots i = true → occAt slots j = true →
    org_key_equal (slotAt slots i).1 (slotAt slots j).1 = false)

/-- Key `key` sits (occupied) at index i. -/
def keyAtIdx (slots : List Slot) (key : OrgVal) (i : Nat) : Prop :=
  occAt slots i = true ∧ org_key_equal (slotAt slots i).1 key = true

/-- The table binds `key` (to something). -/
def hasKey (slots : List Slot) (key : OrgVal) : Prop :=
  ∃ i, i < slots.length ∧ keyAtIdx slots key i

/-- No occupied slot matches `key`. -/
def keyAbsent (slots : List Slot) (key : OrgVal) : Prop :=
  ∀ i, i < slots.length → occAt slots i = true →
    org_key_equal (slotAt slots i).1 key = false

/-- The table binds `key` to `v`. -/
def hasKeyVal (slots : List Slot) (key v : OrgVal) : Prop :=
  ∃ i, i < slots.length ∧ keyAtIdx slots key i ∧ (slotAt slots i).2.1 = v

/-- List-order version of hasKeyVal, used for the rehash induction. -/
def hasKeyValL (l : List Slot) (key v : OrgVal) : Prop :=
  ∃ s ∈ l, occSlot s = true ∧ org_key_equal s.1 key = true ∧ s.2.1 = v

/-! ## Basic lemmas about the value model -/

theorem isError_iff {v : OrgVal} : isError v = true ↔ v = .errorV := by
  cases v <;> simp [isError]

theorem wrap_mpz_shape (z : Int) :
    (org_small_fits z = true ∧ wrap_mpz z = .small z) ∨
    (org_small_fits z = false ∧ wrap_mpz z = .bigintV z) := by
  by_cases h : org_small_fits z = true
  · exact Or.inl ⟨h, by simp [wrap_mpz, h]⟩
  · refine Or.inr ⟨by simpa using h, by simp [wrap_mpz, h]⟩

theorem wrap_mpz_big {z w : Int} (h : wrap_mpz z = .bigintV w) :
    org_small_fits w = false := by
  rcases wrap_mpz_shape z with ⟨hf, he⟩ | ⟨hf, he⟩
  · rw [he] at h; exact absurd h (by simp)
  · rw [he] at h
    obtain rfl : z = w := by injection h
    exact hf

theorem wrap_mpz_ne_rational {z n d : Int} : wrap_mpz z ≠ .rationalV n d := by
  rcases wrap_mpz_shape z with ⟨_, he⟩ | ⟨_, he⟩ <;> simp [he]

theorem wrap_rat_eq {q : Int × Int} {n d : Int}
    (h : wrap_mpq_rational q = .rationalV n d) : q.1 = n ∧ q.2 = d ∧ d ≠ 1 := by
  unfold wrap_mpq_rational at h
  split at h
  · exact absurd h wrap_mpz_ne_rational
  · next hne =>
    injection h with h1 h2
    exact ⟨h1, h2, fun hd => hne (h2.trans hd)⟩

theorem wrap_mpq_rational_big {q : Int × Int} {w : Int}
    (h : wrap_mpq_rational q = .bigintV w) : org_small_fits w = false := by
  unfold wrap_mpq_rational at h
  split at h
  · exact wrap_mpz_big h
  · exact absurd h (by simp)

theorem binSlow_big {zf : Int → Int → Int}
    {qf : Int × Int → Int × Int → Int × Int} {sc : Int → Int → Int}
    {a b : OrgVal} {w : Int}
    (h : binSlow zf qf sc a b = .bigintV w) : org_small_fits w = false := by
  unfold binSlow at h
  split at h
  · exact absurd h (by simp)
  · split at h
    · exact absurd h (by simp)
    · split at h
      · exact wrap_mpz_big h
      · split at h
        · exact absurd h (by simp [wrap_mpq_decimal])
        · exact wrap_mpq_rational_big h

/-! ## C1: error stickiness of the binary operations -/

/-- C1 (amended): the six binary arithmetic operations of the core
runtime (ops.c org_add, org_sub, org_mul, org_div, org_mod, org_pow) all
propagate the ERROR sentinel: an ERROR operand forces an ERROR result.
(The string-dispatched infix surface of the generated-code header does
NOT share this property — see the counterexample theorem.) -/
theorem C1_core_ops_error_sticky (a b : OrgVal)
    (h : isError a = true ∨ isError b = true) :
    org_add a b = .errorV ∧ org_sub a b = .errorV ∧ org_mul a b = .errorV ∧
    org_div a b = .errorV ∧ org_mod a b = some .errorV ∧
    org_pow a b = .errorV := by
  have hor : (isError a || isError b) = true := by
    rcases h with h | h <;> simp [h]
  have hsm : (isSmall a && isSmall b) = false := by
    rcases h with h | h
    · rw [isError_iff] at h; subst h; rfl
    · rw [isError_iff] at h; subst h; simp [isSmall]
  refine ⟨?_, ?_, ?_, ?_, ?_, ?_⟩
  · simp [org_add, hsm, binSlow, hor]
  · simp [org_sub, hsm, binSlow, hor]
  · simp [org_mul, hsm, binSlow, hor]
  · simp [org_div, hor]
  · simp [org_mod, hor]
  · simp [org_pow, hor]

/-- Witness for C1 at a concrete input. -/
theorem C1_core_ops_error_sticky_witness :
    org_add .errorV (.small 3) = .errorV ∧
    org_sub .errorV (.small 3) = .errorV ∧
    org_mul .errorV (.small 3) = .errorV ∧
    org_div .errorV (.small 3) = .errorV ∧
    org_mod .errorV (.small 3) = some .errorV ∧
    org_pow .errorV (.small 3) = .errorV :=
  C1_core_ops_error_sticky .errorV (.small 3) (Or.inl rfl)

/-- C1 counterexample: the generated-code header's string-dispatched
infix "+" does not propagate the ERROR value.  org_value_to_long reads an
ERROR operand as 0, so ERROR + 5 evaluates to the INT 5, not to ERROR. -/
theorem C1_infix_surface_counterexample :
    org_infix_op "+" .herr (.hint 5) = some (.hint 5) ∧
    org_infix_op "+" .herr (.hint 5) ≠ some .herr := by
  constructor
  · rfl
  · intro h
    rw [show org_infix_op "+" .herr (.hint 5) = some (.hint 5) from rfl] at h
    simp at h

/-! ## C2: integer normalization -/

/-- C2 (amended): every integer an arithmetic operation returns is
normalized — if org_add/org_sub/org_mul/org_div returns a heap BigInt,
its value does not fit the 62-bit immediate range.  (The BigInt
constructors do not normalize — see the counterexample theorem.) -/
theorem C2_arith_results_normalized (a b : OrgVal) (w : Int) :
    (org_add a b = .bigintV w → org_small_fits w = false) ∧
    (org_sub a b = .bigintV w → org_small_fits w = false) ∧
    (org_mul a b = .bigintV w → org_small_fits w = false) ∧
    (org_div a b = .bigintV w → org_small_fits w = false) := by
  refine ⟨?_, ?_, ?_, ?_⟩ <;> intro h
  · unfold org_add at h
    split at h
    · split at h
      · exact absurd h (by simp)
      · exact wrap_mpz_big h
    · exact binSlow_big h
  · unfold org_sub at h
    split at h
    · split at h
      · exact absurd h (by simp)
      · exact wrap_mpz_big h
    · exact binSlow_big h
  · unfold org_mul at h
    split at h
    · split at h
      · exact absurd h (by simp)
      · exact wrap_mpz_big h
    · exact binSlow_big h
  · unfold org_div at h
    split at h
    · exact absurd h (by simp)
    split at h
    · exact absurd h (by simp)
    split at h
    · exact absurd h (by simp)
    split at h
    · exact absurd h (by simp)
    split at h
    · split at h
      · exact wrap_mpz_big h
      · exact wrap_mpq_rational_big h
    · split at h
      · split at h
        · exact absurd h (by simp)
        · exact absurd h (by simp [wrap_mpq_decimal])
      · split at h
        · exact absurd h (by simp)
        · exact wrap_mpq_rational_big h

/-- Witness for C2: adding 1 to the largest immediate overflows into a
BigInt, whose value 2^61 indeed does not fit. -/
theorem C2_arith_results_normalized_witness :
    org_small_fits (2 ^ 61) = false :=
  (C2_arith_results_normalized (.small (2 ^ 61 - 1)) (.small 1) (2 ^ 61)).1
    (by norm_num [org_add, isSmall, untag_small, org_small_fits, SMALL_MIN,
      SMALL_MAX, wrap_mpz])

/-- C2 counterexample: the constructor org_make_bigint_si builds a heap
BigInt from any int64, with no normalization — org_make_bigint_si(5) is a
BigInt even though 5 fits the immediate range. -/
theorem C2_constructor_counterexample :
    org_make_bigint_si 5 = .bigintV 5 ∧ org_small_fits 5 = true :=
  ⟨rfl, by decide⟩

/-! ## Canonicalization lemmas and C6 -/

theorem qcanon_canonical {n d : Int} (hd : d ≠ 0) :
    canonicalPair (qcanon (n, d)) := by
  have hg : 0 < Int.gcd n d :=
    Nat.pos_of_ne_zero fun h => hd (Int.gcd_eq_zero_iff.mp h).2
  have hco : Int.gcd (n / (Int.gcd n d : Int)) (d / (Int.gcd n d : Int)) = 1 :=
    Int.gcd_div_gcd_div_gcd hg
  have hmul : (Int.gcd n d : Int) * (d / (Int.gcd n d : Int)) = d :=
    Int.mul_ediv_cancel' Int.gcd_dvd_right
  have hd' : d / (Int.gcd n d : Int) ≠ 0 := by
    intro h0; rw [h0, mul_zero] at hmul; exact hd hmul.symm
  simp only [qcanon]
  rw [if_neg hd]
  split
  · next hlt =>
    refine ⟨?_, ?_⟩
    · simpa [Int.neg_gcd, Int.gcd_neg] using hco
    · simpa using hlt
  · next hge =>
    exact ⟨hco, lt_of_le_of_ne (not_lt.mp hge) (Ne.symm hd')⟩

theorem qcanon_den_one_dvd {n d : Int} (hd : d ≠ 0)
    (h : (qcanon (n, d)).2 = 1) : d ∣ n := by
  have hdvd_n : ((Int.gcd n d : Int)) ∣ n := Int.gcd_dvd_left
  have hmul : (Int.gcd n d : Int) * (d / (Int.gcd n d : Int)) = d :=
    Int.mul_ediv_cancel' Int.gcd_dvd_right
  simp only [qcanon] at h
  rw [if_neg hd] at h
  split at h
  · have h1 : -(d / (Int.gcd n d : Int)) = 1 := h
    have h2 : d / (Int.gcd n d : Int) = -1 := by linarith
    rw [h2, mul_neg_one] at hmul
    rw [← hmul]
    exact (Int.neg_dvd).mpr hdvd_n
  · have h1 : d / (Int.gcd n d : Int) = 1 := h
    rw [h1, mul_one] at hmul
    rw [← hmul]
    exact hdvd_n

theorem to_mpq_den_pos {v : OrgVal} (h : wfNum v) : 0 < (to_mpq v).2 := by
  cases v
  case rationalV n d => exact h.2
  case decimalV n d s => exact h.2
  all_goals norm_num [to_mpq]

theorem canonical_wrap_rat {q : Int × Int} {n d : Int} (hc : canonicalPair q)
    (h : wrap_mpq_rational q = .rationalV n d) : Int.gcd n d = 1 ∧ 1 < d := by
  obtain ⟨h1, h2, h3⟩ := wrap_rat_eq h
  subst h1
  subst h2
  obtain ⟨hg, hp⟩ := hc
  exact ⟨hg, by omega⟩

theorem binSlow_rational {zf : Int → Int → Int}
    {qf : Int × Int → Int × Int → Int × Int} {sc : Int → Int → Int}
    {a b : OrgVal} {n d : Int}
    (h : binSlow zf qf sc a b = .rationalV n d) :
    wrap_mpq_rational (qf (to_mpq a) (to_mpq b)) = .rationalV n d := by
  unfold binSlow at h
  split at h
  · exact absurd h (by simp)
  split at h
  · exact absurd h (by simp)
  split at h
  · exact absurd h wrap_mpz_ne_rational
  split at h
  · exact absurd h (by simp [wrap_mpq_decimal])
  exact h

theorem org_add_rational {a b : OrgVal} {n d : Int}
    (h : org_add a b = .rationalV n d) :
    wrap_mpq_rational (qadd (to_mpq a) (to_mpq b)) = .rationalV n d := by
  unfold org_add at h
  split at h
  · split at h
    · exact absurd h (by simp)
    · exact absurd h wrap_mpz_ne_rational
  · exact binSlow_rational h

theorem org_sub_rational {a b : OrgVal} {n d : Int}
    (h : org_sub a b = .rationalV n d) :
    wrap_mpq_rational (qsub (to_mpq a) (to_mpq b)) = .rationalV n d := by
  unfold org_sub at h
  split at h
  · split at h
    · exact absurd h (by simp)
    · exact absurd h wrap_mpz_ne_rational
  · exact binSlow_rational h

theorem org_mul_rational {a b : OrgVal} {n d : Int}
    (h : org_mul a b = .rationalV n d) :
    wrap_mpq_rational (qmul (to_mpq a) (to_mpq b)) = .rationalV n d := by
  unfold org_mul at h
  split at h
  · split at h
    · exact absurd h (by simp)
    · exact absurd h wrap_mpz_ne_rational
  · exact binSlow_rational h

theorem int_cat_nonzero {b : OrgVal} (hb : isIntCat (num_category b) = true)
    (hsz : isSmallZero b = false) (hbz : isBigZero b = false) :
    to_mpz b ≠ 0 := by
  cases b <;> simp_all [num_category, isIntCat, isSmallZero, isBigZero, to_mpz]

theorem org_div_rational {a b : OrgVal} {n d : Int} (hwa : wfNum a)
    (hwb : wfNum b) (h : org_div a b = .rationalV n d) :
    Int.gcd n d = 1 ∧ 1 < d := by
  unfold org_div at h
  split at h
  · exact absurd h (by simp)
  split at h
  · exact absurd h (by simp)
  next hsz =>
  split at h
  · exact absurd h (by simp)
  next hbz =>
  split at h
  · exact absurd h (by simp)
  split at h
  · next hint =>
    split at h
    · exact absurd h wrap_mpz_ne_rational
    · have hb2 : isIntCat (num_category b) = true := by
        simp at hint
        exact hint.2
      have hsz' : isSmallZero b = false := by simpa using hsz
      have hbz' : isBigZero b = false := by simpa using hbz
      have hzb : to_mpz b ≠ 0 := int_cat_nonzero hb2 hsz' hbz'
      have hq : qdiv (to_mpz a, 1) (to_mpz b, 1) = qcanon (to_mpz a, to_mpz b) := by
        simp [qdiv]
      rw [hq] at h
      exact canonical_wrap_rat (qcanon_canonical hzb) h
  · split at h
    · split at h
      · exact absurd h (by simp)
      · exact absurd h (by simp [wrap_mpq_decimal])
    · split at h
      · exact absurd h (by simp)
      · next hqb =>
        have hda := to_mpq_den_pos hwa
        have hc : canonicalPair (qdiv (to_mpq a) (to_mpq b)) := by
          simp only [qdiv]
          exact qcanon_canonical (mul_ne_zero hda.ne' hqb)
        exact canonical_wrap_rat hc h

theorem org_neg_rational {a : OrgVal} {n d : Int} (hwa : wfNum a)
    (h : org_neg a = .rationalV n d) : Int.gcd n d = 1 ∧ 1 < d := by
  cases a with
  | small n0 =>
    rw [show org_neg (.small n0) =
        (if org_small_fits (-(untag_small (OrgVal.small n0))) then
          OrgVal.small (-(untag_small (OrgVal.small n0)))
        else wrap_mpz (-(untag_small (OrgVal.small n0)))) from rfl] at h
    split at h
    · exact absurd h (by simp)
    · exact absurd h wrap_mpz_ne_rational
  | bigintV z =>
    rw [show org_neg (.bigintV z) = wrap_mpz (-z) from rfl] at h
    exact absurd h wrap_mpz_ne_rational
  | rationalV n0 d0 =>
    rw [show org_neg (.rationalV n0 d0) = wrap_mpq_rational (-n0, d0)
        from rfl] at h
    exact canonical_wrap_rat ⟨by simpa [Int.neg_gcd] using hwa.1, hwa.2⟩ h
  | decimalV n0 d0 s0 =>
    rw [show org_neg (.decimalV n0 d0 s0) = wrap_mpq_decimal (-n0, d0) s0
        from rfl] at h
    exact absurd h (by simp [wrap_mpq_decimal])
  | strV s => exact OrgVal.noConfusion h
  | tableV s c ni => exact OrgVal.noConfusion h
  | boolT => exact OrgVal.noConfusion h
  | boolF => exact OrgVal.noConfusion h
  | errorV => exact OrgVal.noConfusion h
  | unusedV => exact OrgVal.noConfusion h

theorem org_pow_rational {a b : OrgVal} {n d : Int} (hwa : wfNum a)
    (h : org_pow a b = .rationalV n d) : Int.gcd n d = 1 ∧ 1 < d := by
  unfold org_pow at h
  split at h
  · exact absurd h (by simp)
  split at h
  · exact absurd h (by simp)
  split at h
  · exact absurd h (by simp)
  split at h
  · exact absurd h (by simp)
  split at h
  · exact absurd h (by simp)
  · exact absurd h wrap_mpz_ne_rational
  · exact absurd h wrap_mpz_ne_rational
  · next hcat =>
    obtain ⟨n0, d0, rfl⟩ : ∃ n0 d0, a = .rationalV n0 d0 := by
      cases a <;> simp_all [num_category]
    simp only [to_mpq] at h
    have hd0 : 0 < d0 := hwa.2
    exact canonical_wrap_rat (qcanon_canonical (pow_ne_zero _ hd0.ne')) h
  · exact absurd h (by simp [wrap_mpq_decimal])

/-- C6 (amended): every Rational in the system is canonical — the
constructor canonicalizes (gcd 1, positive denominator), and every
Rational returned by an arithmetic operation additionally has
denominator > 1 (wrap_mpq_rational rewraps denominator-1 results as
integers).  The constructor itself does NOT rewrap denominator-1
results — see the counterexample theorem. -/
theorem C6_rationals_canonical :
    (∀ num den : Int, den ≠ 0 →
      org_make_rational num den =
        .rationalV (qcanon (num, den)).1 (qcanon (num, den)).2 ∧
      Int.gcd (qcanon (num, den)).1 (qcanon (num, den)).2 = 1 ∧
      0 < (qcanon (num, den)).2) ∧
    (∀ a b : OrgVal, ∀ n d : Int, wfNum a → wfNum b →
      org_add a b = .rationalV n d ∨ org_sub a b = .rationalV n d ∨
      org_mul a b = .rationalV n d ∨ org_div a b = .rationalV n d ∨
      org_neg a = .rationalV n d ∨ org_pow a b = .rationalV n d →
      Int.gcd n d = 1 ∧ 1 < d) := by
  constructor
  · intro num den hden
    exact ⟨rfl, (qcanon_canonical hden).1, (qcanon_canonical hden).2⟩
  · intro a b n d hwa hwb hdisj
    have hda := to_mpq_den_pos hwa
    have hdb := to_mpq_den_pos hwb
    rcases hdisj with h | h | h | h | h | h
    · refine canonical_wrap_rat ?_ (org_add_rational h)
      simp only [qadd]
      exact qcanon_canonical (mul_ne_zero hda.ne' hdb.ne')
    · refine canonical_wrap_rat ?_ (org_sub_rational h)
      simp only [qsub]
      exact qcanon_canonical (mul_ne_zero hda.ne' hdb.ne')
    · refine canonical_wrap_rat ?_ (org_mul_rational h)
      simp only [qmul]
      exact qcanon_canonical (mul_ne_zero hda.ne' hdb.ne')
    · exact org_div_rational hwa hwb h
    · exact org_neg_rational hwa h
    · exact org_pow_rational hwa h

/-- Witness for C6: the constructor on 2/3 and an addition whose result
is the Rational 5/6. -/
theorem C6_rationals_canonical_witness :
    (org_make_rational 2 3 =
        .rationalV (qcanon (2, 3)).1 (qcanon (2, 3)).2 ∧
      Int.gcd (qcanon (2, 3)).1 (qcanon (2, 3)).2 = 1 ∧
      0 < (qcanon (2, 3)).2) ∧
    (Int.gcd 5 6 = 1 ∧ 1 < (6 : Int)) := by
  constructor
  · exact C6_rationals_canonical.1 2 3 (by decide)
  · exact C6_rationals_canonical.2 (.rationalV 1 2) (.rationalV 1 3) 5 6
      ⟨by decide, by decide⟩ ⟨by decide, by decide⟩ (Or.inl (by rfl))

/-- C6 counterexample: org_make_rational_str("2","2") canonicalizes to
1/1 and returns it as a Rational object — a denominator-1 Rational is
returned as a Rational by the constructor, violating the claim that such
values are always rewrapped as integers. -/
theorem C6_den_one_counterexample : org_make_rational 2 2 = .rationalV 1 1 :=
  rfl

/-! ## C3: division -/

theorem C3_division (a b : OrgVal) :
    (isIntCat (num_category a) = true → isIntCat (num_category b) = true →
      to_mpz b ≠ 0 →
      ((to_mpz a).tmod (to_mpz b) = 0 →
        (∃ q, org_div a b = .small q ∧ org_small_fits q = true) ∨
        (∃ q, org_div a b = .bigintV q ∧ org_small_fits q = false)) ∧
      ((to_mpz a).tmod (to_mpz b) ≠ 0 →
        ∃ n d, org_div a b = .rationalV n d ∧ Int.gcd n d = 1 ∧ 1 < d)) ∧
    (num_category a ≠ .NNONE → num_category b ≠ .NNONE → wfNum b →
      (to_mpq b).1 = 0 → org_div a b = .errorV) := by
  constructor
  · intro hia hib hzb
    have hea : isError a = false := by
      cases a <;> simp_all [num_category, isIntCat, isError]
    have heb : isError b = false := by
      cases b <;> simp_all [num_category, isIntCat, isError]
    have hsz : isSmallZero b = false := by
      cases b <;> simp_all [num_category, isIntCat, isSmallZero, to_mpz]
    have hbz : isBigZero b = false := by
      cases b <;> simp_all [num_category, isIntCat, isBigZero, to_mpz]
    have hnone : ¬(num_category a = .NNONE ∨ num_category b = .NNONE) := by
      rintro (hc | hc) <;> simp_all [isIntCat]
    have hdiv : org_div a b =
        (if (to_mpz a).tmod (to_mpz b) = 0 then
          wrap_mpz ((to_mpz a).tdiv (to_mpz b))
        else wrap_mpq_rational (qdiv (to_mpz a, 1) (to_mpz b, 1))) := by
      simp [org_div, hea, heb, hsz, hbz, hnone, hia, hib]
    constructor
    · intro hmod
      rw [hdiv, if_pos hmod]
      rcases wrap_mpz_shape ((to_mpz a).tdiv (to_mpz b)) with ⟨hf, he⟩ | ⟨hf, he⟩
      · exact Or.inl ⟨_, he, hf⟩
      · exact Or.inr ⟨_, he, hf⟩
    · intro hmod
      rw [hdiv, if_neg hmod]
      have hq : qdiv (to_mpz a, 1) (to_mpz b, 1) =
          qcanon (to_mpz a, to_mpz b) := by simp [qdiv]
      rw [hq]
      have hden1 : (qcanon (to_mpz a, to_mpz b)).2 ≠ 1 := by
        intro h1
        exact hmod (Int.tmod_eq_zero_of_dvd (qcanon_den_one_dvd hzb h1))
      have hcan := @qcanon_canonical (to_mpz a) (to_mpz b) hzb
      refine ⟨(qcanon (to_mpz a, to_mpz b)).1, (qcanon (to_mpz a, to_mpz b)).2,
        ?_, hcan.1, ?_⟩
      · unfold wrap_mpq_rational
        rw [if_neg hden1]
      · have := hcan.2
        omega
  · intro hna hnb hwb hqb
    have hea : isError a = false := by
      cases a <;> simp_all [num_category, isError]
    cases b with
    | small n =>
      have hn : n = 0 := hqb
      subst hn
      simp [org_div, hea, isError, isSmallZero]
    | bigintV z =>
      have hz : z = 0 := hqb
      subst hz
      simp [org_div, hea, isError, isSmallZero, isBigZero]
    | rationalV n0 d0 =>
      have hn : n0 = 0 := hqb
      subst hn
      by_cases hca : num_category a = .NDEC <;>
        simp [org_div, hea, isError, isSmallZero, isBigZero, hna, hca,
          num_category, isIntCat, to_mpq]
    | decimalV n0 d0 s0 =>
      have hn : n0 = 0 := hqb
      subst hn
      simp [org_div, hea, isError, isSmallZero, isBigZero, hna,
        num_category, isIntCat, to_mpq]
    | strV s => exact absurd rfl hnb
    | tableV s c ni => exact absurd rfl hnb
    | boolT => exact absurd rfl hnb
    | boolF => exact absurd rfl hnb
    | errorV => exact absurd rfl hnb
    | unusedV => exact absurd rfl hnb

/-- Witness for C3: 10/2 is the exact normalized integer case, 7/2 the
canonical-Rational case, 1/0 the zero-divisor case. -/
theorem C3_division_witness :
    ((∃ q, org_div (.small 10) (.small 2) = .small q ∧
        org_small_fits q = true) ∨
      (∃ q, org_div (.small 10) (.small 2) = .bigintV q ∧
        org_small_fits q = false)) ∧
    (∃ n d, org_div (.small 7) (.small 2) = .rationalV n d ∧
      Int.gcd n d = 1 ∧ 1 < d) ∧
    org_div (.small 1) (.small 0) = .errorV := by
  refine ⟨((C3_division (.small 10) (.small 2)).1 rfl rfl (by decide)).1
      (by decide),
    ((C3_division (.small 7) (.small 2)).1 rfl rfl (by decide)).2 (by decide),
    (C3_division (.small 1) (.small 0)).2 (by decide) (by decide) trivial
      (by decide)⟩

/-! ## C7: modulo -/

/-- C7: org_mod's zero-divisor guard only covers a small-integer divisor.
A BigInt divisor holding zero (constructible with org_make_bigint_si 0)
reaches mpz_mod with a zero divisor — a GMP division-by-zero trap, not
the ERROR sentinel the spec requires.  `none` is the model's marker for
that undefined behaviour. -/
theorem C7_mod_bigint_zero_trap :
    org_mod (.small 1) (org_make_bigint_si 0) = none := rfl

/-! ## C5: scheduler pipeline ordering -/

theorem schedRun_succ (src : List HVal) (fuel : Nat) (s : SchedState) :
    schedRun src (fuel + 1) s =
      if s.queue.isEmpty then s else schedRun src fuel (schedStep src s) :=
  rfl

theorem sched_drain_aux (src : List HVal)
    (hsrc : ∀ v ∈ src, isErrMarker v = false) :
    ∀ n k log, k + n = src.length →
      schedRun src (2 * n + 1) ⟨[.pumpT], k, log⟩ =
        ⟨[], src.length, log ++ src.drop k⟩ := by
  intro n
  induction n with
  | zero =>
    intro k log hk
    have hk' : k = src.length := by omega
    subst hk'
    have hget : src[src.length]? = none := by simp
    show schedRun src (2 * 0 + 1) _ = _
    rw [show (2 * 0 + 1 : Nat) = 0 + 1 from rfl, schedRun_succ]
    simp [schedStep, hget, schedRun, List.drop_length]
  | succ m ih =>
    intro k log hk
    have hklt : k < src.length := by omega
    have hget : src[k]? = some src[k] := List.getElem?_eq_getElem hklt
    set item := src[k] with hitem
    have hmark : isErrMarker item = false := hsrc item (src.getElem_mem hklt)
    have hdrop : src.drop k = item :: src.drop (k + 1) :=
      List.drop_eq_getElem_cons hklt
    have e1 : schedStep src ⟨[.pumpT], k, log⟩ =
        ⟨[.sinkT item, .pumpT], k + 1, log⟩ := by
      simp [schedStep, hget, hmark]
    have e2 : schedStep src ⟨[.sinkT item, .pumpT], k + 1, log⟩ =
        ⟨[.pumpT], k + 1, log ++ [item]⟩ := by
      simp [schedStep]
    have heq : (2 : Nat) * (m + 1) + 1 = (2 * m + 1) + 1 + 1 := by ring
    rw [heq, schedRun_succ]
    simp only [List.isEmpty_cons, if_false, Bool.false_eq_true]
    rw [e1, schedRun_succ]
    simp only [List.isEmpty_cons, if_false, Bool.false_eq_true]
    rw [e2, ih (k + 1) (log ++ [item]) (by omega), hdrop]
    simp

/-- C5: running the scheduler on a pump-to-sink pipeline over an
N-element list (none of whose elements is the in-band "Error" string)
drains the queue in 2N+1 steps, the sink observing exactly the N source
values in source order: each pump step spawns the sink task at the tail
and then re-enqueues the pump behind it, so the sink for element i runs
before the pump pulls element i+1. -/
theorem C5_pipeline_in_order (src : List HVal)
    (hsrc : ∀ v ∈ src, isErrMarker v = false) :
    schedRun src (2 * src.length + 1) initPipeline =
      ⟨[], src.length, src⟩ := by
  have h := sched_drain_aux src hsrc src.length 0 [] (by omega)
  simpa [initPipeline] using h

/-- Witness for C5 on the list [1,2,3]. -/
theorem C5_pipeline_in_order_witness :
    schedRun [.hint 1, .hint 2, .hint 3] 7 initPipeline =
      ⟨[], 3, [.hint 1, .hint 2, .hint 3]⟩ :=
  C5_pipeline_in_order [.hint 1, .hint 2, .hint 3]
    (by
      intro v hv
      simp only [List.mem_cons, List.mem_singleton] at hv
      rcases hv with rfl | rfl | rfl | h
      · rfl
      · rfl
      · rfl
      · simp at h)

/-! ## C8: arena allocation -/

theorem align_up_mod {a : Nat} (ha : 0 < a) (n : Nat) :
    align_up n a % a = 0 := by
  unfold align_up
  have h1 : (n + a - 1) % a + a * ((n + a - 1) / a) = n + a - 1 :=
    Nat.mod_add_div _ _
  have h2 : (n + a - 1) - (n + a - 1) % a = a * ((n + a - 1) / a) := by omega
  rw [h2]
  simp [Nat.mul_mod_right]

theorem le_align_up {a : Nat} (ha : 0 < a) (n : Nat) : n ≤ align_up n a := by
  unfold align_up
  have h1 : (n + a - 1) % a < a := Nat.mod_lt _ ha
  omega

theorem align_up_of_mod_eq {a n : Nat} (ha : 0 < a) (h : n % a = 0) :
    align_up n a = n := by
  have hx : (n + a - 1) % a = a - 1 := by
    have h3 : n + a - 1 = n + (a - 1) := by omega
    rw [h3, Nat.add_mod, h]
    simp [Nat.mod_eq_of_lt (show a - 1 < a by omega)]
  unfold align_up
  rw [hx]
  omega

/-- C8 (amended): arena_alloc always returns a pointer aligned to the
requested power-of-two alignment, and the allocated block lies inside a
single page provided that, on the new-page slow path, the fresh page
buffer's base address is itself a multiple of the requested alignment
(true for the 8-byte alignments the runtime requests of malloc-backed
pages).  With a misaligned fresh buffer the slow path can place the block
past the dedicated page's end — see the counterexample theorem. -/
theorem C8_alloc_aligned_and_contained (ar : ArenaSt)
    (size align freshBase k : Nat) (hal : align = 2 ^ k)
    (hne : ar.pages ≠ []) (hfb : freshBase % align = 0) :
    ∃ ar2 ptr, arena_alloc ar size align freshBase = some (ar2, ptr) ∧
      ptr % align = 0 ∧ block_in_some_page ar2 ptr size = true := by
  have ha : 0 < align := by subst hal; positivity
  rcases hp : ar.pages with _ | ⟨page, rest⟩
  · exact absurd hp hne
  have hb_le : page.base + page.used ≤ align_up (page.base + page.used) align :=
    le_align_up ha _
  by_cases hfit :
      align_up (page.base + page.used) align - page.base + size ≤ page.capacity
  · have halloc : arena_alloc ar size align freshBase =
        some (⟨ar.defaultPageSize,
            ⟨page.base, page.capacity,
              align_up (page.base + page.used) align - page.base + size⟩
            :: rest⟩,
          align_up (page.base + page.used) align) := by
      simp only [arena_alloc, hp]
      rw [if_pos hfit]
    refine ⟨_, _, halloc, align_up_mod ha _, ?_⟩
    simp only [block_in_some_page, List.any_cons, Bool.or_eq_true,
      Bool.and_eq_true, decide_eq_true_eq]
    left
    constructor
    · omega
    · omega
  · have halloc : arena_alloc ar size align freshBase =
        some (⟨ar.defaultPageSize,
            ⟨freshBase,
              if size > ar.defaultPageSize / 2 then align_up size align
              else ar.defaultPageSize,
              align_up freshBase align - freshBase + size⟩ :: page :: rest⟩,
          align_up freshBase align) := by
      simp only [arena_alloc, hp]
      rw [if_neg hfit]
    refine ⟨_, _, halloc, ?_, ?_⟩
    · rw [align_up_of_mod_eq ha hfb]
      exact hfb
    · rw [align_up_of_mod_eq ha hfb]
      simp only [block_in_some_page, List.any_cons, Bool.or_eq_true,
        Bool.and_eq_true, decide_eq_true_eq]
      left
      refine ⟨le_refl _, ?_⟩
      by_cases hbig : size > ar.defaultPageSize / 2
      · rw [if_pos hbig]
        have := le_align_up ha size
        omega
      · rw [if_neg hbig]
        have := Nat.div_le_self ar.defaultPageSize 2
        omega

/-- Witness for C8: an 8-byte allocation with alignment 8 = 2^3 from an
aligned page. -/
theorem C8_alloc_aligned_and_contained_witness :
    ∃ ar2 ptr, arena_alloc ⟨64, [⟨0, 64, 0⟩]⟩ 8 8 0 = some (ar2, ptr) ∧
      ptr % 8 = 0 ∧ block_in_some_page ar2 ptr 8 = true :=
  C8_alloc_aligned_and_contained ⟨64, [⟨0, 64, 0⟩]⟩ 8 8 0 3 rfl
    (by simp) rfl

/-- C8 counterexample: an outsized slow-path allocation (size 48 > 64/2,
align 16) from a fresh page whose buffer base is ≡ 8 (mod 16): the page
is sized align_up(48,16) = 48, the aligned pointer is 16, and the block
[16,64) runs past the page [8,56) — the allocation is NOT contained in
any page, refuting the unconditional containment claim. -/
theorem C8_slow_path_escapes_page :
    arena_alloc ⟨64, [⟨1000, 64, 60⟩]⟩ 48 16 8 =
      some (⟨64, [⟨8, 48, 56⟩, ⟨1000, 64, 60⟩]⟩, 16) ∧
    block_in_some_page ⟨64, [⟨8, 48, 56⟩, ⟨1000, 64, 60⟩]⟩ 16 48 = false :=
  ⟨rfl, rfl⟩

/-! ## C9: non-table receivers -/

/-- C9 (amended): a non-table receiver yields the ERROR sentinel from
set, push, get and get_cstr; but org_table_has answers FALSE (it maps
get's ERROR to a boolean) and org_table_count answers the uint32 0 — not
the ERROR sentinel (the code's own test suite asserts count == 0 for a
non-table receiver). -/
theorem C9_nontable_receiver (v key value : OrgVal) (name : List Nat)
    (h : isTable v = false) :
    org_table_set v key value = some .errorV ∧
    org_table_push v value = some .errorV ∧
    org_table_get v key = some .errorV ∧
    org_table_get_cstr v name = some .errorV ∧
    org_table_has v key = some .boolF ∧
    org_table_count v = 0 := by
  cases v <;> simp_all [isTable, org_table_set, org_table_push, org_table_get,
    org_table_get_cstr, org_table_has, org_table_count, isError]

/-- Witness for C9 at a concrete non-table receiver. -/
theorem C9_nontable_receiver_witness :
    org_table_set .boolT (.small 0) (.small 1) = some .errorV ∧
    org_table_push .boolT (.small 1) = some .errorV ∧
    org_table_get .boolT (.small 0) = some .errorV ∧
    org_table_get_cstr .boolT [] = some .errorV ∧
    org_table_has .boolT (.small 0) = some .boolF ∧
    org_table_count .boolT = 0 :=
  C9_nontable_receiver .boolT (.small 0) (.small 1) [] rfl

/-- C9 counterexample: on a non-table receiver, org_table_has returns
FALSE and org_table_count returns 0 — neither is the ERROR sentinel the
claim demands for every table operation. -/
theorem C9_has_count_counterexample :
    org_table_has .boolT (.small 0) = some .boolF ∧
    org_table_has .boolT (.small 0) ≠ some .errorV ∧
    org_table_count .boolT = 0 := by
  refine ⟨rfl, ?_, rfl⟩
  intro h
  rw [show org_table_has .boolT (.small 0) = some .boolF from rfl] at h
  simp at h

/-! ## Table machinery: key equality, probing, slot access -/

theorem org_key_equal_eq {a b : OrgVal} (h : org_key_equal a b = true) :
    a = b := by
  cases a <;> cases b <;> simp_all [org_key_equal]

theorem org_key_equal_symm (a b : OrgVal) :
    org_key_equal a b = org_key_equal b a := by
  by_cases hab : org_key_equal a b = true
  · obtain rfl := org_key_equal_eq hab
    rfl
  · by_cases hba : org_key_equal b a = true
    · obtain rfl := org_key_equal_eq hba
      rfl
    · simp only [Bool.not_eq_true] at hab hba
      rw [hab, hba]

theorem org_key_equal_refl {a : OrgVal} (h : is_valid_key a = true) :
    org_key_equal a a = true := by
  cases a <;> simp_all [is_valid_key, org_key_equal]

theorem org_hash_congr {a b : OrgVal} (h : org_key_equal a b = true) :
    org_hash_value a = org_hash_value b := by
  rw [org_key_equal_eq h]

theorem probeIdx_lt {len : Nat} (hl : 0 < len) (home t : Nat) :
    probeIdx len home t < len := Nat.mod_lt _ hl

theorem probeDist_lt {len : Nat} (hl : 0 < len) (home i : Nat) :
    probeDist len home i < len := Nat.mod_lt _ hl

theorem probeIdx_zero {len home : Nat} (hhome : home < len) :
    probeIdx len home 0 = home := by
  unfold probeIdx
  rw [Nat.add_zero]
  exact Nat.mod_eq_of_lt hhome

theorem probeIdx_shift (len home t : Nat) :
    probeIdx len ((home + 1) % len) t = probeIdx len home (t + 1) := by
  unfold probeIdx
  conv_lhs => rw [Nat.add_mod, Nat.mod_mod_of_dvd _ (dvd_refl len)]
  rw [← Nat.add_mod]
  congr 1
  omega

theorem probeIdx_probeDist {len home i : Nat} (hhome : home < len)
    (hi : i < len) : probeIdx len home (probeDist len home i) = i := by
  unfold probeIdx probeDist
  have h1 : (home + (i + len - home) % len) % len =
      (home + (i + len - home)) % len := by
    conv_lhs => rw [Nat.add_mod]
    conv_rhs => rw [Nat.add_mod]
    rw [Nat.mod_mod_of_dvd _ (dvd_refl len)]
  have h2 : home + (i + len - home) = i + len := by omega
  rw [h1, h2, Nat.add_mod_right]
  exact Nat.mod_eq_of_lt hi

theorem probeIdx_inj {len home s t : Nat} (hs : s < len) (ht : t < len)
    (h : probeIdx len home s = probeIdx len home t) : s = t := by
  unfold probeIdx at h
  have key : ∀ {x y : Nat}, x ≤ y → y < len →
      (home + x) % len = (home + y) % len → x = y := by
    intro x y hxy hy hmod
    have hdvd : len ∣ (home + y) - (home + x) :=
      (Nat.modEq_iff_dvd' (by omega)).mp hmod
    have h2 : (home + y) - (home + x) = y - x := by omega
    rw [h2] at hdvd
    rcases Nat.eq_zero_or_pos (y - x) with h0 | hpos
    · omega
    · have := Nat.le_of_dvd hpos hdvd
      omega
  rcases le_total s t with hle | hle
  · exact key hle ht h
  · exact (key hle hs h.symm).symm

theorem occAt_of_get? {slots : List Slot} {i : Nat} {s : Slot}
    (hg : slots.get? i = some s) : occAt slots i = occSlot s := by
  unfold occAt
  rw [hg]

theorem occAt_of_get?_none {slots : List Slot} {i : Nat}
    (hg : slots.get? i = none) : occAt slots i = false := by
  unfold occAt
  rw [hg]

theorem slotAt_of_get? {slots : List Slot} {i : Nat} {s : Slot}
    (hg : slots.get? i = some s) : slotAt slots i = s := by
  unfold slotAt
  rw [List.getD_eq_getElem?_getD, ← List.get?_eq_getElem?, hg]
  rfl

theorem get?_of_lt {slots : List Slot} {i : Nat} (hi : i < slots.length) :
    slots.get? i = some (slotAt slots i) := by
  have hg : slots.get? i = some (slots.get ⟨i, hi⟩) := List.get?_eq_get hi
  rw [hg, slotAt_of_get? hg]

theorem occAt_lt {slots : List Slot} {i : Nat} (h : occAt slots i = true) :
    i < slots.length := by
  by_contra hge
  rw [occAt_of_get?_none (List.get?_eq_none.mpr (by omega))] at h
  exact absurd h (by simp)

theorem occAt_eq_slotAt {slots : List Slot} {i : Nat}
    (hi : i < slots.length) : occAt slots i = occSlot (slotAt slots i) :=
  occAt_of_get? (get?_of_lt hi)

theorem occAt_set_ne {slots : List Slot} {j i : Nat} {s : Slot}
    (hne : j ≠ i) : occAt (slots.set j s) i = occAt slots i := by
  unfold occAt
  rw [List.get?_eq_getElem?, List.get?_eq_getElem?, List.getElem?_set_ne hne]

theorem slotAt_set_ne {slots : List Slot} {j i : Nat} {s : Slot}
    (hne : j ≠ i) : slotAt (slots.set j s) i = slotAt slots i := by
  unfold slotAt
  rw [List.getD_eq_getElem?_getD, List.getD_eq_getElem?_getD,
    List.getElem?_set_ne hne]

theorem occAt_set_self {slots : List Slot} {j : Nat} {s : Slot}
    (hj : j < slots.length) : occAt (slots.set j s) j = occSlot s := by
  unfold occAt
  rw [List.get?_eq_getElem?, List.getElem?_set_self hj]

theorem slotAt_set_self {slots : List Slot} {j : Nat} {s : Slot}
    (hj : j < slots.length) : slotAt (slots.set j s) j = s := by
  unfold slotAt
  rw [List.getD_eq_getElem?_getD, List.getElem?_set_self hj]
  rfl

theorem exists_free {slots : List Slot} {count : Nat}
    (hc : count = slots.countP occSlot) (hlt : count < slots.length) :
    ∃ u, u < slots.length ∧ occAt slots u = false := by
  by_contra hno
  push_neg at hno
  have hall : ∀ s ∈ slots, occSlot s = true := by
    intro s hs
    obtain ⟨n, hn, rfl⟩ := List.mem_iff_getElem.mp hs
    have hne := hno n hn
    have hg : slots.get? n = some slots[n] := by
      rw [List.get?_eq_getElem?]
      exact List.getElem?_eq_getElem hn
    rw [occAt_of_get? hg] at hne
    simpa using hne
  have hfull : slots.countP occSlot = slots.length := by
    rw [List.countP_eq_length_filter, List.filter_eq_self.mpr hall]
  omega

theorem stopAt_of_lt {slots : List Slot} {key : OrgVal} {h i : Nat}
    (hi : i < slots.length) :
    stopAt slots key h i =
      (isUnused (slotAt slots i).1 ||
        (decide ((slotAt slots i).2.2 = h) &&
          org_key_equal (slotAt slots i).1 key)) := by
  unfold stopAt
  rw [get?_of_lt hi]

theorem occAt_true_unused_false {slots : List Slot} {i : Nat}
    (hi : i < slots.length) (h : occAt slots i = true) :
    isUnused (slotAt slots i).1 = false := by
  have h2 := occAt_eq_slotAt hi
  rw [h] at h2
  unfold occSlot at h2
  cases hcase : isUnused (slotAt slots i).1
  · rfl
  · rw [hcase] at h2
    simp at h2

theorem occAt_false_unused_true {slots : List Slot} {i : Nat}
    (hi : i < slots.length) (h : occAt slots i = false) :
    isUnused (slotAt slots i).1 = true := by
  have h2 := occAt_eq_slotAt hi
  rw [h] at h2
  unfold occSlot at h2
  cases hcase : isUnused (slotAt slots i).1
  · rw [hcase] at h2
    simp at h2
  · rfl

theorem occAt_of_unused_false {slots : List Slot} {i : Nat}
    (hi : i < slots.length) (h : isUnused (slotAt slots i).1 = false) :
    occAt slots i = true := by
  rw [occAt_eq_slotAt hi]
  unfold occSlot
  rw [h]
  rfl

theorem findSlotGo_stop {slots : List Slot} {key : OrgVal} {h : Nat} :
    ∀ fuel start t0, start < slots.length → t0 < fuel →
      stopAt slots key h (probeIdx slots.length start t0) = true →
      (∀ s, s < t0 → stopAt slots key h (probeIdx slots.length start s) = false) →
      findSlotGo slots key h start fuel =
        some (probeIdx slots.length start t0) := by
  intro fuel
  induction fuel with
  | zero =>
    intro start t0 _ ht0 _ _
    omega
  | succ m ih =>
    intro start t0 hstart ht0 hstop hmin
    have hl : 0 < slots.length := by omega
    have hg : slots.get? start = some (slotAt slots start) := get?_of_lt hstart
    rcases Nat.eq_zero_or_pos t0 with rfl | hpos
    · rw [probeIdx_zero hstart] at hstop ⊢
      unfold stopAt at hstop
      rw [hg] at hstop
      simp only [findSlotGo, hg]
      by_cases hu : isUnused (slotAt slots start).1 = true
      · rw [if_pos hu]
      · rw [if_neg hu]
        simp only [Bool.or_eq_true] at hstop
        rcases hstop with hstop | hstop
        · exact absurd hstop hu
        · rw [if_pos hstop]
    · have hmin0 := hmin 0 hpos
      rw [probeIdx_zero hstart] at hmin0
      unfold stopAt at hmin0
      rw [hg] at hmin0
      simp only [Bool.or_eq_false_iff] at hmin0
      obtain ⟨h1, h2⟩ := hmin0
      simp only [findSlotGo, hg]
      rw [if_neg (by simp [h1]), if_neg (by simp [h2])]
      obtain ⟨u, rfl⟩ : ∃ u, t0 = u + 1 := ⟨t0 - 1, by omega⟩
      rw [← probeIdx_shift]
      exact ih ((start + 1) % slots.length) u (Nat.mod_lt _ hl) (by omega)
        (by rw [probeIdx_shift]; exact hstop)
        (fun s hs => by rw [probeIdx_shift]; exact hmin (s + 1) (by omega))

theorem find_slot_present {slots : List Slot} {count : Nat} {key : OrgVal}
    {i : Nat} (hinv : Inv slots count) (hvk : is_valid_key key = true)
    (hi : i < slots.length) (hocc : occAt slots i = true)
    (hkey : org_key_equal (slotAt slots i).1 key = true) :
    find_slot slots key (org_hash_value key) = some i := by
  obtain ⟨hl, hcnt, hclt, hslots, hnodup⟩ := hinv
  obtain ⟨hv_i, hh_i, hchain_i⟩ := hslots i hi hocc
  have hh : (slotAt slots i).2.2 = org_hash_value key := by
    rw [hh_i]
    exact org_hash_congr hkey
  have hhome : org_hash_value key % slots.length < slots.length :=
    Nat.mod_lt _ hl
  have ht0 : probeDist slots.length (org_hash_value key % slots.length) i <
      slots.length := probeDist_lt hl _ i
  have hpi : probeIdx slots.length (org_hash_value key % slots.length)
      (probeDist slots.length (org_hash_value key % slots.length) i) = i :=
    probeIdx_probeDist hhome hi
  unfold chainAt at hchain_i
  rw [hh] at hchain_i
  have hstop : stopAt slots key (org_hash_value key)
      (probeIdx slots.length (org_hash_value key % slots.length)
        (probeDist slots.length (org_hash_value key % slots.length) i)) =
      true := by
    rw [hpi, stopAt_of_lt hi]
    simp [hh, hkey]
  have hmin : ∀ s,
      s < probeDist slots.length (org_hash_value key % slots.length) i →
      stopAt slots key (org_hash_value key)
        (probeIdx slots.length (org_hash_value key % slots.length) s) =
        false := by
    intro s hs
    have hplt : probeIdx slots.length (org_hash_value key % slots.length) s <
        slots.length := probeIdx_lt hl _ s
    have hocc_s : occAt slots
        (probeIdx slots.length (org_hash_value key % slots.length) s) =
        true := hchain_i s hs
    have hun := occAt_true_unused_false hplt hocc_s
    by_cases hk : org_key_equal (slotAt slots
        (probeIdx slots.length (org_hash_value key % slots.length) s)).1
        key = true
    · exfalso
      have hne : probeIdx slots.length (org_hash_value key % slots.length) s ≠
          i := by
        rw [← hpi]
        intro heq
        have := @probeIdx_inj slots.length
          (org_hash_value key % slots.length) _ _
          (by omega) ht0 heq
        omega
      have hnd := hnodup _ hplt i hi hne hocc_s hocc
      rw [org_key_equal_eq hk, org_key_equal_eq hkey] at hnd
      rw [org_key_equal_refl hvk] at hnd
      exact absurd hnd (by simp)
    · simp only [Bool.not_eq_true] at hk
      rw [stopAt_of_lt hplt]
      simp [hun, hk]
  have := findSlotGo_stop slots.length
    (org_hash_value key % slots.length)
    (probeDist slots.length (org_hash_value key % slots.length) i)
    hhome ht0 hstop hmin
  unfold find_slot
  rw [this, hpi]

theorem find_slot_absent {slots : List Slot} {count : Nat} {key : OrgVal}
    (hinv : Inv slots count) (hvk : is_valid_key key = true)
    (habs : keyAbsent slots key) :
    ∃ j, j < slots.length ∧
      find_slot slots key (org_hash_value key) = some j ∧
      occAt slots j = false ∧
      ∀ s, s < probeDist slots.length
          (org_hash_value key % slots.length) j →
        occAt slots
          (probeIdx slots.length (org_hash_value key % slots.length) s) =
          true := by
  obtain ⟨hl, hcnt, hclt, hslots, hnodup⟩ := hinv
  obtain ⟨u, hu, huocc⟩ := exists_free hcnt hclt
  have hhome : org_hash_value key % slots.length < slots.length :=
    Nat.mod_lt _ hl
  have hstop_u : stopAt slots key (org_hash_value key)
      (probeIdx slots.length (org_hash_value key % slots.length)
        (probeDist slots.length (org_hash_value key % slots.length) u)) =
      true := by
    rw [probeIdx_probeDist hhome hu, stopAt_of_lt hu,
      occAt_false_unused_true hu huocc]
    rfl
  have hex : ∃ t, stopAt slots key (org_hash_value key)
      (probeIdx slots.length (org_hash_value key % slots.length) t) =
      true := ⟨_, hstop_u⟩
  set t0 := Nat.find hex with ht0def
  have hstop := Nat.find_spec hex
  have hmin : ∀ s, s < t0 →
      stopAt slots key (org_hash_value key)
        (probeIdx slots.length (org_hash_value key % slots.length) s) =
        false := by
    intro s hs
    have := Nat.find_min hex hs
    simpa using this
  have ht0le : t0 ≤ probeDist slots.length
      (org_hash_value key % slots.length) u := Nat.find_min' hex hstop_u
  have ht0lt : t0 < slots.length := by
    have := probeDist_lt hl (org_hash_value key % slots.length) u
    omega
  have hjlt : probeIdx slots.length (org_hash_value key % slots.length) t0 <
      slots.length := probeIdx_lt hl _ _
  have hjocc : occAt slots
      (probeIdx slots.length (org_hash_value key % slots.length) t0) =
      false := by
    by_cases hoj : occAt slots
        (probeIdx slots.length (org_hash_value key % slots.length) t0) = true
    · exfalso
      have hkf := habs _ hjlt hoj
      have hun := occAt_true_unused_false hjlt hoj
      rw [stopAt_of_lt hjlt, hun, hkf] at hstop
      simp at hstop
    · simpa using hoj
  refine ⟨probeIdx slots.length (org_hash_value key % slots.length) t0,
    hjlt, ?_, hjocc, ?_⟩
  · unfold find_slot
    exact findSlotGo_stop slots.length _ t0 hhome ht0lt hstop hmin
  · intro s hs
    have hdist : probeDist slots.length (org_hash_value key % slots.length)
        (probeIdx slots.length (org_hash_value key % slots.length) t0) =
        t0 := by
      apply @probeIdx_inj slots.length
        (org_hash_value key % slots.length) _ _
        (probeDist_lt hl _ _) ht0lt
      rw [probeIdx_probeDist hhome hjlt]
    rw [hdist] at hs
    have hsf := hmin s hs
    have hslt : probeIdx slots.length (org_hash_value key % slots.length) s <
        slots.length := probeIdx_lt hl _ s
    rw [stopAt_of_lt hslt] at hsf
    simp only [Bool.or_eq_false_iff] at hsf
    exact occAt_of_unused_false hslt hsf.1

theorem valid_not_unused {key : OrgVal} (h : is_valid_key key = true) :
    isUnused key = false := by
  cases key <;> simp_all [is_valid_key, isUnused]

theorem slotAt_eq_getElem {slots : List Slot} {i : Nat}
    (hi : i < slots.length) : slotAt slots i = slots[i] :=
  slotAt_of_get?
    (by rw [List.get?_eq_getElem?]; exact List.getElem?_eq_getElem hi)

theorem occAt_set_mono {slots : List Slot} {j : Nat} {snew : Slot}
    (hnew : occSlot snew = true) {q : Nat} (h : occAt slots q = true) :
    occAt (slots.set j snew) q = true := by
  by_cases hq : j = q
  · subst hq
    rw [occAt_set_self (occAt_lt h)]
    exact hnew
  · rw [occAt_set_ne hq]
    exact h

theorem countP_set_fresh {slots : List Slot} {j : Nat} {snew : Slot}
    (hj : j < slots.length) (hold : occAt slots j = false)
    (hnew : occSlot snew = true) :
    (slots.set j snew).countP occSlot = slots.countP occSlot + 1 := by
  rw [List.countP_set _ _ _ _ hj]
  have h1 : occSlot slots[j] = false := by
    rw [← slotAt_eq_getElem hj, ← occAt_eq_slotAt hj]
    exact hold
  rw [h1, hnew]
  simp

theorem countP_set_overwrite {slots : List Slot} {j : Nat} {snew : Slot}
    (hj : j < slots.length) (hold : occAt slots j = true)
    (hnew : occSlot snew = true) :
    (slots.set j snew).countP occSlot = slots.countP occSlot := by
  rw [List.countP_set _ _ _ _ hj]
  have h1 : occSlot slots[j] = true := by
    rw [← slotAt_eq_getElem hj, ← occAt_eq_slotAt hj]
    exact hold
  have h2 : 0 < slots.countP occSlot := by
    rw [List.countP_pos_iff]
    exact ⟨slots[j], List.getElem_mem hj, h1⟩
  rw [h1, hnew]
  simp only [if_pos trivial, eq_self_iff_true, if_true]
  omega

theorem occSlot_new {key value : OrgVal} {hh : Nat}
    (hvk : is_valid_key key = true) :
    occSlot ((key, value, hh) : Slot) = true := by
  unfold occSlot
  rw [show ((key, value, hh) : Slot).1 = key from rfl, valid_not_unused hvk]
  rfl

theorem chainAt_set_mono {slots : List Slot} {j : Nat} {snew : Slot}
    (hnew : occSlot snew = true) {i : Nat} (hij : j ≠ i)
    (hch : chainAt slots i) : chainAt (slots.set j snew) i := by
  unfold chainAt at hch ⊢
  rw [List.length_set, slotAt_set_ne hij]
  intro t ht
  exact occAt_set_mono hnew (hch t ht)

theorem chainAt_set_new {slots : List Slot} {j : Nat} {key value : OrgVal}
    (hj : j < slots.length) (hvk : is_valid_key key = true)
    (hchain : ∀ s,
      s < probeDist slots.length (org_hash_value key % slots.length) j →
      occAt slots (probeIdx slots.length (org_hash_value key % slots.length) s)
        = true) :
    chainAt (slots.set j (key, value, org_hash_value key)) j := by
  unfold chainAt
  rw [List.length_set, slotAt_set_self hj]
  intro t ht
  exact occAt_set_mono (occSlot_new hvk) (hchain t ht)

theorem set_fresh_inv {slots : List Slot} {count : Nat} {key value : OrgVal}
    {j : Nat} (hinv : Inv slots count) (hvk : is_valid_key key = true)
    (hj : j < slots.length) (hunocc : occAt slots j = false)
    (hchain : ∀ s,
      s < probeDist slots.length (org_hash_value key % slots.length) j →
      occAt slots (probeIdx slots.length (org_hash_value key % slots.length) s)
        = true)
    (habs : keyAbsent slots key) (hlt2 : count + 1 < slots.length) :
    Inv (slots.set j (key, value, org_hash_value key)) (count + 1) := by
  obtain ⟨hl, hcnt, hclt, hslots, hnodup⟩ := hinv
  have hnew : occSlot ((key, value, org_hash_value key) : Slot) = true :=
    occSlot_new hvk
  refine ⟨?_, ?_, ?_, ?_, ?_⟩
  · rw [List.length_set]
    omega
  · rw [countP_set_fresh hj hunocc hnew]
    omega
  · rw [List.length_set]
    omega
  · intro i hi hocc
    rw [List.length_set] at hi
    by_cases hij : j = i
    · subst hij
      rw [slotAt_set_self hj]
      exact ⟨hvk, rfl, chainAt_set_new hj hvk hchain⟩
    · rw [slotAt_set_ne hij]
      rw [occAt_set_ne hij] at hocc
      obtain ⟨hv, hhsh, hch⟩ := hslots i hi hocc
      exact ⟨hv, hhsh, chainAt_set_mono hnew hij hch⟩
  · intro i hi i2 hi2 hne hocc1 hocc2
    rw [List.length_set] at hi hi2
    by_cases hij : j = i
    · subst hij
      have hij2 : j ≠ i2 := hne
      rw [slotAt_set_self hj]
      rw [slotAt_set_ne hij2]
      rw [occAt_set_ne hij2] at hocc2
      rw [org_key_equal_symm]
      exact habs i2 hi2 hocc2
    · by_cases hij2 : j = i2
      · subst hij2
        rw [slotAt_set_self hj]
        rw [slotAt_set_ne hij]
        rw [occAt_set_ne hij] at hocc1
        exact habs i hi hocc1
      · rw [slotAt_set_ne hij, slotAt_set_ne hij2]
        rw [occAt_set_ne hij] at hocc1
        rw [occAt_set_ne hij2] at hocc2
        exact hnodup i hi i2 hi2 hne hocc1 hocc2

theorem set_overwrite_inv {slots : List Slot} {count : Nat}
    {key value : OrgVal} {i : Nat} (hinv : Inv slots count)
    (hvk : is_valid_key key = true) (hi : i < slots.length)
    (hocc : occAt slots i = true)
    (hkey : org_key_equal (slotAt slots i).1 key = true) :
    Inv (slots.set i (key, value, org_hash_value key)) count := by
  obtain ⟨hl, hcnt, hclt, hslots, hnodup⟩ := hinv
  have hkeq : (slotAt slots i).1 = key := org_key_equal_eq hkey
  obtain ⟨hv_i, hh_i, hch_i⟩ := hslots i hi hocc
  have hnew : occSlot ((key, value, org_hash_value key) : Slot) = true :=
    occSlot_new hvk
  refine ⟨?_, ?_, ?_, ?_, ?_⟩
  · rw [List.length_set]
    omega
  · rw [countP_set_overwrite hi hocc hnew]
    exact hcnt
  · rw [List.length_set]
    omega
  · intro p hp hpocc
    rw [List.length_set] at hp
    by_cases hpi : i = p
    · subst hpi
      rw [slotAt_set_self hi]
      refine ⟨hvk, rfl, ?_⟩
      unfold chainAt
      rw [List.length_set, slotAt_set_self hi]
      intro t ht
      apply occAt_set_mono hnew
      unfold chainAt at hch_i
      rw [hh_i, hkeq] at hch_i
      exact hch_i t ht
    · rw [slotAt_set_ne hpi]
      rw [occAt_set_ne hpi] at hpocc
      obtain ⟨hv, hhsh, hch⟩ := hslots p hp hpocc
      exact ⟨hv, hhsh, chainAt_set_mono hnew hpi hch⟩
  · intro p hp q hq hne hocc1 hocc2
    rw [List.length_set] at hp hq
    by_cases hpi : i = p
    · subst hpi
      have hqi : i ≠ q := hne
      rw [slotAt_set_self hi]
      rw [slotAt_set_ne hqi]
      rw [occAt_set_ne hqi] at hocc2
      have := hnodup i hi q hq hne hocc hocc2
      rw [hkeq] at this
      exact this
    · by_cases hqi : i = q
      · subst hqi
        rw [slotAt_set_self hi]
        rw [slotAt_set_ne hpi]
        rw [occAt_set_ne hpi] at hocc1
        have := hnodup p hp i hi hne hocc1 hocc
        rw [hkeq] at this
        exact this
      · rw [slotAt_set_ne hpi, slotAt_set_ne hqi]
        rw [occAt_set_ne hpi] at hocc1
        rw [occAt_set_ne hqi] at hocc2
        exact hnodup p hp q hq hne hocc1 hocc2

theorem hasKeyVal_set {slots : List Slot} {j : Nat} {key value : OrgVal}
    {hh : Nat} (hj : j < slots.length) (hvk : is_valid_key key = true)
    (hjold : occAt slots j = true →
      org_key_equal (slotAt slots j).1 key = true) :
    hasKeyVal (slots.set j (key, value, hh)) key value ∧
    ∀ key2 v2, org_key_equal key2 key = false →
      (hasKeyVal (slots.set j (key, value, hh)) key2 v2 ↔
        hasKeyVal slots key2 v2) := by
  constructor
  · refine ⟨j, ?_, ⟨?_, ?_⟩, ?_⟩
    · rw [List.length_set]
      exact hj
    · rw [occAt_set_self hj]
      exact occSlot_new hvk
    · rw [slotAt_set_self hj]
      exact org_key_equal_refl hvk
    · rw [slotAt_set_self hj]
  · intro key2 v2 hk2
    constructor
    · rintro ⟨i, hi, ⟨hocc, hkeyi⟩, hval⟩
      rw [List.length_set] at hi
      by_cases hij : i = j
      · subst hij
        rw [slotAt_set_self hj] at hkeyi
        exfalso
        have heq : key = key2 := org_key_equal_eq hkeyi
        rw [← heq, org_key_equal_refl hvk] at hk2
        exact absurd hk2 (by simp)
      · rw [occAt_set_ne (by omega : j ≠ i)] at hocc
        rw [slotAt_set_ne (by omega : j ≠ i)] at hkeyi hval
        exact ⟨i, hi, ⟨hocc, hkeyi⟩, hval⟩
    · rintro ⟨i, hi, ⟨hocc, hkeyi⟩, hval⟩
      by_cases hij : i = j
      · subst hij
        exfalso
        have hkj := hjold hocc
        have h1 := org_key_equal_eq hkj
        have h2 := org_key_equal_eq hkeyi
        rw [h1] at h2
        rw [← h2, org_key_equal_refl hvk] at hk2
        exact absurd hk2 (by simp)
      · refine ⟨i, ?_, ⟨?_, ?_⟩, ?_⟩
        · rw [List.length_set]
          exact hi
        · rw [occAt_set_ne (by omega : j ≠ i)]
          exact hocc
        · rw [slotAt_set_ne (by omega : j ≠ i)]
          exact hkeyi
        · rw [slotAt_set_ne (by omega : j ≠ i)]
          exact hval

theorem hasKeyVal_unique {slots : List Slot} {count : Nat} {key v1 v2 : OrgVal}
    (hinv : Inv slots count) (h1 : hasKeyVal slots key v1)
    (h2 : hasKeyVal slots key v2) : v1 = v2 := by
  obtain ⟨_, _, _, hslots, hnodup⟩ := hinv
  obtain ⟨i1, hi1, ⟨ho1, hk1⟩, hv1⟩ := h1
  obtain ⟨i2, hi2, ⟨ho2, hk2⟩, hv2⟩ := h2
  by_cases he : i1 = i2
  · subst he
    rw [← hv1, ← hv2]
  · exfalso
    have hnd := hnodup i1 hi1 i2 hi2 he ho1 ho2
    have e1 := org_key_equal_eq hk1
    have e2 := org_key_equal_eq hk2
    rw [e1, e2] at hnd
    have hval := (hslots i1 hi1 ho1).1
    rw [e1] at hval
    rw [org_key_equal_refl hval] at hnd
    exact absurd hnd (by simp)

theorem hasKeyVal_iff_L {slots : List Slot} {key v : OrgVal} :
    hasKeyVal slots key v ↔ hasKeyValL slots key v := by
  constructor
  · rintro ⟨i, hi, ⟨hocc, hkey⟩, hval⟩
    refine ⟨slotAt slots i, ?_, ?_, hkey, hval⟩
    · rw [slotAt_eq_getElem hi]
      exact List.getElem_mem hi
    · rw [← occAt_eq_slotAt hi]
      exact hocc
  · rintro ⟨s, hs, hocc, hkey, hval⟩
    obtain ⟨n, hn, rfl⟩ := List.mem_iff_getElem.mp hs
    refine ⟨n, hn, ⟨?_, ?_⟩, ?_⟩
    · rw [occAt_eq_slotAt hn, slotAt_eq_getElem hn]
      exact hocc
    · rw [slotAt_eq_getElem hn]
      exact hkey
    · rw [slotAt_eq_getElem hn]
      exact hval

theorem hasKeyValL_cons {s : Slot} {rest : List Slot} {key v : OrgVal} :
    hasKeyValL (s :: rest) key v ↔
      (occSlot s = true ∧ org_key_equal s.1 key = true ∧ s.2.1 = v) ∨
      hasKeyValL rest key v := by
  constructor
  · rintro ⟨t, ht, h1, h2, h3⟩
    rcases List.mem_cons.mp ht with rfl | htr
    · exact Or.inl ⟨h1, h2, h3⟩
    · exact Or.inr ⟨t, htr, h1, h2, h3⟩
  · rintro (⟨h1, h2, h3⟩ | ⟨t, htr, h1, h2, h3⟩)
    · exact ⟨s, List.mem_cons_self _ _, h1, h2, h3⟩
    · exact ⟨t, List.mem_cons_of_mem _ htr, h1, h2, h3⟩

theorem keyAbsent_iff_no_val {slots : List Slot} {key : OrgVal} :
    keyAbsent slots key ↔ ∀ v, ¬ hasKeyVal slots key v := by
  constructor
  · rintro habs v ⟨i, hi, ⟨hocc, hkey⟩, hval⟩
    rw [habs i hi hocc] at hkey
    exact absurd hkey (by simp)
  · intro h i hi hocc
    by_cases hk : org_key_equal (slotAt slots i).1 key = true
    · exact absurd ⟨i, hi, ⟨hocc, hk⟩, rfl⟩ (h _)
    · simpa using hk

theorem hasKey_iff_val {slots : List Slot} {key : OrgVal} :
    hasKey slots key ↔ ∃ v, hasKeyVal slots key v := by
  constructor
  · rintro ⟨i, hi, hki⟩
    exact ⟨(slotAt slots i).2.1, i, hi, hki, rfl⟩
  · rintro ⟨v, i, hi, hki, _⟩
    exact ⟨i, hi, hki⟩

theorem inv_mem_facts {slots : List Slot} {count : Nat}
    (hinv : Inv slots count) :
    ∀ s ∈ slots, occSlot s = true →
      is_valid_key s.1 = true ∧ s.2.2 = org_hash_value s.1 := by
  intro s hs hocc
  obtain ⟨n, hn, rfl⟩ := List.mem_iff_getElem.mp hs
  have hoccA : occAt slots n = true := by
    rw [occAt_eq_slotAt hn, slotAt_eq_getElem hn]
    exact hocc
  obtain ⟨hv, hh, _⟩ := hinv.2.2.2.1 n hn hoccA
  rw [slotAt_eq_getElem hn] at hv hh
  exact ⟨hv, hh⟩

theorem inv_pairwise {slots : List Slot} {count : Nat}
    (hinv : Inv slots count) :
    List.Pairwise (fun s t => occSlot s = true → occSlot t = true →
      org_key_equal s.1 t.1 = false) slots := by
  rw [List.pairwise_iff_getElem]
  intro i j hi hj hij ho1 ho2
  have h1 : occAt slots i = true := by
    rw [occAt_eq_slotAt hi, slotAt_eq_getElem hi]
    exact ho1
  have h2 : occAt slots j = true := by
    rw [occAt_eq_slotAt hj, slotAt_eq_getElem hj]
    exact ho2
  have := hinv.2.2.2.2 i hi j hj (by omega) h1 h2
  rw [slotAt_eq_getElem hi, slotAt_eq_getElem hj] at this
  exact this

theorem occAt_replicate {n i : Nat} :
    occAt (List.replicate n emptySlot) i = false := by
  unfold occAt
  rw [List.get?_eq_getElem?, List.getElem?_replicate]
  by_cases h : i < n
  · rw [if_pos h]
    rfl
  · rw [if_neg h]

theorem keyAbsent_replicate {n : Nat} {key : OrgVal} :
    keyAbsent (List.replicate n emptySlot) key := by
  intro i hi hocc
  rw [occAt_replicate] at hocc
  exact absurd hocc (by simp)

theorem inv_replicate {n : Nat} (hn : 0 < n) :
    Inv (List.replicate n emptySlot) 0 := by
  refine ⟨by simpa using hn, ?_, by simpa using hn, ?_, ?_⟩
  · symm
    rw [List.countP_eq_zero]
    intro s hs
    rw [List.eq_of_mem_replicate hs]
    simp [occSlot, emptySlot, isUnused]
  · intro i hi hocc
    rw [occAt_replicate] at hocc
    exact absurd hocc (by simp)
  · intro i hi j hj hne ho1 ho2
    rw [occAt_replicate] at ho1
    exact absurd ho1 (by simp)

theorem growRehash_spec :
    ∀ (rem : List Slot) (dst : List Slot) (m : Nat),
      Inv dst m →
      (∀ s ∈ rem, occSlot s = true →
        is_valid_key s.1 = true ∧ s.2.2 = org_hash_value s.1) →
      (∀ s ∈ rem, occSlot s = true → keyAbsent dst s.1) →
      List.Pairwise (fun s t => occSlot s = true → occSlot t = true →
        org_key_equal s.1 t.1 = false) rem →
      m + rem.countP occSlot < dst.length →
      ∃ dst2, growRehash dst rem = some dst2 ∧
        Inv dst2 (m + rem.countP occSlot) ∧
        dst2.length = dst.length ∧
        (∀ key v, hasKeyVal dst2 key v ↔
          (hasKeyVal dst key v ∨ hasKeyValL rem key v)) := by
  intro rem
  induction rem with
  | nil =>
    intro dst m hinv _ _ _ _
    refine ⟨dst, rfl, ?_, rfl, ?_⟩
    · simpa using hinv
    · intro key v
      simp [hasKeyValL]
  | cons s rest ih =>
    intro dst m hinv hfacts habs hpw hbud
    by_cases hos : occSlot s = true
    · have hvs : is_valid_key s.1 = true :=
        (hfacts s (List.mem_cons_self _ _) hos).1
      have hhs : s.2.2 = org_hash_value s.1 :=
        (hfacts s (List.mem_cons_self _ _) hos).2
      have habs_s : keyAbsent dst s.1 := habs s (List.mem_cons_self _ _) hos
      obtain ⟨j, hj, hfind, hunocc, hchain⟩ := find_slot_absent hinv hvs habs_s
      have hset_eq : dst.set j s = dst.set j (s.1, s.2.1, org_hash_value s.1) := by
        rw [← hhs]
      have hcnt_cons : (s :: rest).countP occSlot = rest.countP occSlot + 1 := by
        rw [List.countP_cons, if_pos hos]
      have hbud2 : m + 1 + rest.countP occSlot < dst.length := by
        rw [hcnt_cons] at hbud
        omega
      have hinv2 : Inv (dst.set j (s.1, s.2.1, org_hash_value s.1)) (m + 1) :=
        set_fresh_inv hinv hvs hj hunocc hchain habs_s (by omega)
      have hlook := @hasKeyVal_set dst j s.1 s.2.1 (org_hash_value s.1)
        hj hvs (fun hocc => absurd hocc (by rw [hunocc]; simp))
      have hlen2 : (dst.set j (s.1, s.2.1, org_hash_value s.1)).length =
          dst.length := List.length_set _ _ _
      have hfacts2 : ∀ t ∈ rest, occSlot t = true →
          is_valid_key t.1 = true ∧ t.2.2 = org_hash_value t.1 :=
        fun t ht => hfacts t (List.mem_cons_of_mem _ ht)
      have hpw2 := (List.pairwise_cons.mp hpw).2
      have hpw_head := (List.pairwise_cons.mp hpw).1
      have habs2 : ∀ t ∈ rest, occSlot t = true →
          keyAbsent (dst.set j (s.1, s.2.1, org_hash_value s.1)) t.1 := by
        intro t ht hot i hi hocci
        rw [List.length_set] at hi
        by_cases hij : j = i
        · subst hij
          rw [slotAt_set_self hj]
          exact hpw_head t ht hos hot
        · rw [slotAt_set_ne hij]
          rw [occAt_set_ne hij] at hocci
          exact habs t (List.mem_cons_of_mem _ ht) hot i hi hocci
      obtain ⟨dst2, hgr2, hinv3, hlen3, hlook3⟩ :=
        ih (dst.set j (s.1, s.2.1, org_hash_value s.1)) (m + 1) hinv2 hfacts2
          habs2 hpw2 (by rw [hlen2]; exact hbud2)
      have hun_s : isUnused s.1 = false := valid_not_unused hvs
      refine ⟨dst2, ?_, ?_, ?_, ?_⟩
      · simp only [growRehash]
        rw [if_neg (by simp [hun_s]), hhs, hfind]
        show growRehash (dst.set j s) rest = some dst2
        rw [hset_eq]
        exact hgr2
      · rw [hcnt_cons, show m + (rest.countP occSlot + 1) =
          m + 1 + rest.countP occSlot by omega]
        exact hinv3
      · rw [hlen3, hlen2]
      · intro key v
        rw [hlook3 key v, hasKeyValL_cons]
        have hmain : hasKeyVal (dst.set j (s.1, s.2.1, org_hash_value s.1))
            key v ↔ hasKeyVal dst key v ∨
            (occSlot s = true ∧ org_key_equal s.1 key = true ∧ s.2.1 = v) := by
          by_cases hkk : org_key_equal key s.1 = true
          · obtain rfl : key = s.1 := org_key_equal_eq hkk
            constructor
            · intro h1
              exact Or.inr ⟨hos, org_key_equal_refl hvs,
                (hasKeyVal_unique hinv2 hlook.1 h1).symm ▸ rfl⟩
            · rintro (h1 | ⟨_, _, h3⟩)
              · exact absurd h1 (keyAbsent_iff_no_val.mp habs_s v)
              · rw [← h3]
                exact hlook.1
          · have hkk2 : org_key_equal s.1 key = false := by
              rw [org_key_equal_symm]
              simpa using hkk
            rw [hlook.2 key v (by simpa using hkk)]
            simp [hkk2]
        rw [hmain]
        tauto
    · have hos2 : occSlot s = false := by simpa using hos
      have hun_s : isUnused s.1 = true := by
        unfold occSlot at hos2
        cases hcase : isUnused s.1
        · rw [hcase] at hos2
          simp at hos2
        · rfl
      have hcnt_cons : (s :: rest).countP occSlot = rest.countP occSlot := by
        rw [List.countP_cons, if_neg (by simp [hos2])]
        omega
      obtain ⟨dst2, hgr2, hinv3, hlen3, hlook3⟩ :=
        ih dst m hinv (fun t ht => hfacts t (List.mem_cons_of_mem _ ht))
          (fun t ht => habs t (List.mem_cons_of_mem _ ht))
          (List.pairwise_cons.mp hpw).2 (by rw [hcnt_cons] at hbud; exact hbud)
      refine ⟨dst2, ?_, ?_, hlen3, ?_⟩
      · simp only [growRehash]
        rw [if_pos hun_s]
        exact hgr2
      · rw [hcnt_cons]
        exact hinv3
      · intro key v
        rw [hlook3 key v, hasKeyValL_cons]
        simp [hos2]

theorem grow_spec {slots : List Slot} {count : Nat} (hinv : Inv slots count) :
    ∃ dst, tableGrow slots = some dst ∧ Inv dst count ∧
      dst.length = 2 * slots.length ∧
      (∀ key v, hasKeyVal dst key v ↔ hasKeyVal slots key v) := by
  have hl : 0 < slots.length := hinv.1
  have hcnt : count = slots.countP occSlot := hinv.2.1
  have hclt : count < slots.length := hinv.2.2.1
  have hinv0 : Inv (List.replicate (2 * slots.length) emptySlot) 0 :=
    inv_replicate (by omega)
  have hbud : 0 + slots.countP occSlot <
      (List.replicate (2 * slots.length) emptySlot).length := by
    rw [List.length_replicate]
    omega
  obtain ⟨dst, hgr, hinv2, hlen, hlook⟩ :=
    growRehash_spec slots (List.replicate (2 * slots.length) emptySlot) 0
      hinv0 (inv_mem_facts hinv) (fun s _ _ => keyAbsent_replicate)
      (inv_pairwise hinv) hbud
  refine ⟨dst, hgr, ?_, by rw [hlen, List.length_replicate], ?_⟩
  · have : (0 : Nat) + slots.countP occSlot = count := by omega
    rw [this] at hinv2
    exact hinv2
  · intro key v
    rw [hlook key v, @hasKeyVal_iff_L slots key v]
    have : ¬ hasKeyVal (List.replicate (2 * slots.length) emptySlot) key v :=
      keyAbsent_iff_no_val.mp keyAbsent_replicate v
    tauto

theorem tableGetGo_eq_find {slots : List Slot} {key : OrgVal} {h : Nat} :
    ∀ fuel idx, tableGetGo slots key h idx fuel =
      (findSlotGo slots key h idx fuel).map
        (fun j => if isUnused (slotAt slots j).1 then OrgVal.errorV
                  else (slotAt slots j).2.1) := by
  intro fuel
  induction fuel with
  | zero =>
    intro idx
    rfl
  | succ m ih =>
    intro idx
    cases hg : slots.get? idx with
    | none =>
      simp only [tableGetGo, findSlotGo, hg]
      rfl
    | some s =>
      have hsl : slotAt slots idx = s := slotAt_of_get? hg
      simp only [tableGetGo, findSlotGo, hg]
      by_cases hu : isUnused s.1 = true
      · rw [if_pos hu, if_pos hu]
        simp [hsl, hu]
      · rw [if_neg hu, if_neg hu]
        by_cases hm : (decide (s.2.2 = h) && org_key_equal s.1 key) = true
        · rw [if_pos hm, if_pos hm]
          simp only [Option.map_some']
          rw [hsl, if_neg hu]
        · rw [if_neg hm, if_neg hm]
          exact ih _

theorem table_get_present {slots : List Slot} {count ni : Nat}
    {key v : OrgVal} (hinv : Inv slots count)
    (hvk : is_valid_key key = true) (hkv : hasKeyVal slots key v) :
    org_table_get (.tableV slots count ni) key = some v := by
  obtain ⟨i, hi, ⟨hocc, hkey⟩, hval⟩ := hkv
  have hfind : find_slot slots key (org_hash_value key) = some i :=
    find_slot_present hinv hvk hi hocc hkey
  unfold find_slot at hfind
  show (if !(is_valid_key key) then some OrgVal.errorV
        else tableGetGo slots key (org_hash_value key)
          (org_hash_value key % slots.length) slots.length) = some v
  have hnv : ¬ ((!is_valid_key key) = true) := by simp [hvk]
  rw [if_neg hnv, tableGetGo_eq_find, hfind]
  simp only [Option.map_some']
  rw [occAt_true_unused_false hi hocc]
  simp [hval]

theorem table_get_absent {slots : List Slot} {count ni : Nat}
    {key : OrgVal} (hinv : Inv slots count)
    (hvk : is_valid_key key = true) (habs : keyAbsent slots key) :
    org_table_get (.tableV slots count ni) key = some .errorV := by
  obtain ⟨j, hj, hfind, hunocc, _⟩ := find_slot_absent hinv hvk habs
  unfold find_slot at hfind
  show (if !(is_valid_key key) then some OrgVal.errorV
        else tableGetGo slots key (org_hash_value key)
          (org_hash_value key % slots.length) slots.length) = some .errorV
  have hnv : ¬ ((!is_valid_key key) = true) := by simp [hvk]
  rw [if_neg hnv, tableGetGo_eq_find, hfind]
  simp only [Option.map_some']
  rw [occAt_false_unused_true hj hunocc]
  simp

theorem not_hasKey_absent {slots : List Slot} {key : OrgVal}
    (h : ¬ hasKey slots key) : keyAbsent slots key := by
  intro i hi hocc
  by_cases hk : org_key_equal (slotAt slots i).1 key = true
  · exact absurd ⟨i, hi, hocc, hk⟩ h
  · simpa using hk

theorem keyAbsent_not_hasKey {slots : List Slot} {key : OrgVal}
    (h : keyAbsent slots key) : ¬ hasKey slots key := by
  rintro ⟨i, hi, hocc, hkey⟩
  rw [h i hi hocc] at hkey
  exact absurd hkey (by simp)

theorem set_insert_spec {slots1 : List Slot} {count : Nat}
    {key value : OrgVal} (hinv : Inv slots1 count)
    (hvk : is_valid_key key = true) (hroom : count + 1 < slots1.length) :
    ∃ i, i < slots1.length ∧
      find_slot slots1 key (org_hash_value key) = some i ∧
      Inv (slots1.set i (key, value, org_hash_value key))
        (if isUnused (slotAt slots1 i).1 then count + 1 else count) ∧
      hasKeyVal (slots1.set i (key, value, org_hash_value key)) key value ∧
      (∀ key2 v2, org_key_equal key2 key = false →
        (hasKeyVal (slots1.set i (key, value, org_hash_value key)) key2 v2 ↔
          hasKeyVal slots1 key2 v2)) ∧
      (keyAbsent slots1 key → isUnused (slotAt slots1 i).1 = true) ∧
      (hasKey slots1 key → isUnused (slotAt slots1 i).1 = false) := by
  by_cases habs : keyAbsent slots1 key
  · obtain ⟨j, hj, hfind, hunocc, hchain⟩ := find_slot_absent hinv hvk habs
    have hun : isUnused (slotAt slots1 j).1 = true :=
      occAt_false_unused_true hj hunocc
    have hlook := @hasKeyVal_set slots1 j key value (org_hash_value key)
      hj hvk (fun hocc => absurd hocc (by rw [hunocc]; simp))
    refine ⟨j, hj, hfind, ?_, hlook.1, hlook.2, fun _ => hun, ?_⟩
    · rw [if_pos hun]
      exact set_fresh_inv hinv hvk hj hunocc hchain habs hroom
    · intro hk
      exact absurd hk (keyAbsent_not_hasKey habs)
  · have hk : hasKey slots1 key := by
      by_contra hno
      exact habs (not_hasKey_absent hno)
    obtain ⟨i, hi, hocc, hkey⟩ := hk
    have hfind : find_slot slots1 key (org_hash_value key) = some i :=
      find_slot_present hinv hvk hi hocc hkey
    have hun : isUnused (slotAt slots1 i).1 = false :=
      occAt_true_unused_false hi hocc
    have hlook := @hasKeyVal_set slots1 i key value (org_hash_value key)
      hi hvk (fun _ => hkey)
    refine ⟨i, hi, hfind, ?_, hlook.1, hlook.2, ?_, fun _ => hun⟩
    · rw [if_neg (by simp [hun])]
      exact set_overwrite_inv hinv hvk hi hocc hkey
    · intro habs2
      exact absurd ⟨i, hi, hocc, hkey⟩ (keyAbsent_not_hasKey habs2)

theorem table_set_spec {slots : List Slot} {count ni : Nat}
    {key value : OrgVal} (hinv : Inv slots count)
    (hvk : is_valid_key key = true) :
    ∃ slots2 count2,
      org_table_set (.tableV slots count ni) key value =
        some (.tableV slots2 count2 ni) ∧
      Inv slots2 count2 ∧
      slots2.length = (if (count + 1) * 100 > slots.length * 75
        then 2 * slots.length else slots.length) ∧
      (keyAbsent slots key → count2 = count + 1) ∧
      (hasKey slots key → count2 = count) ∧
      hasKeyVal slots2 key value ∧
      (∀ key2 v2, org_key_equal key2 key = false →
        (hasKeyVal slots2 key2 v2 ↔ hasKeyVal slots key2 v2)) := by
  have hl : 0 < slots.length := hinv.1
  have hclt : count < slots.length := hinv.2.2.1
  by_cases hgrow : (count + 1) * 100 > slots.length * 75
  · obtain ⟨dst, hgr, hinvd, hlend, hlookd⟩ := grow_spec hinv
    have hroomd : count + 1 < dst.length := by
      rw [hlend]
      omega
    obtain ⟨i, hi, hfind, hinv2, hkv2, hpres2, hfresh, hover⟩ :=
      @set_insert_spec dst count key value hinvd hvk hroomd
    have hkeyiff : hasKey dst key ↔ hasKey slots key := by
      rw [hasKey_iff_val, hasKey_iff_val]
      constructor
      · rintro ⟨v, hv⟩
        exact ⟨v, (hlookd key v).mp hv⟩
      · rintro ⟨v, hv⟩
        exact ⟨v, (hlookd key v).mpr hv⟩
    refine ⟨dst.set i (key, value, org_hash_value key),
      if isUnused (slotAt dst i).1 then count + 1 else count, ?_, hinv2,
      ?_, ?_, ?_, hkv2, ?_⟩
    · show (if !(is_valid_key key) then some OrgVal.errorV
        else match (if (count + 1) * 100 > slots.length * 75
               then tableGrow slots else some slots) with
          | none => none
          | some slots1 =>
            match find_slot slots1 key (org_hash_value key) with
            | none => none
            | some i =>
              some (.tableV (slots1.set i (key, value, org_hash_value key))
                (if isUnused (slotAt slots1 i).1 then count + 1 else count)
                ni)) = _
      have hnv : ¬ ((!is_valid_key key) = true) := by simp [hvk]
      rw [if_neg hnv, if_pos hgrow, hgr]
      show (match find_slot dst key (org_hash_value key) with
        | none => none
        | some i =>
          some (OrgVal.tableV (dst.set i (key, value, org_hash_value key))
            (if isUnused (slotAt dst i).1 then count + 1 else count) ni)) = _
      rw [hfind]
    · rw [List.length_set, hlend, if_pos hgrow]
    · intro habs
      rw [if_pos]
      apply hfresh
      apply not_hasKey_absent
      rw [hkeyiff]
      exact keyAbsent_not_hasKey habs
    · intro hk
      rw [if_neg]
      rw [hover (hkeyiff.mpr hk)]
      simp
    · intro key2 v2 hne
      rw [hpres2 key2 v2 hne]
      exact hlookd key2 v2
  · have hroom : count + 1 < slots.length := by omega
    obtain ⟨i, hi, hfind, hinv2, hkv2, hpres2, hfresh, hover⟩ :=
      @set_insert_spec slots count key value hinv hvk hroom
    refine ⟨slots.set i (key, value, org_hash_value key),
      if isUnused (slotAt slots i).1 then count + 1 else count, ?_, hinv2,
      ?_, ?_, ?_, hkv2, hpres2⟩
    · show (if !(is_valid_key key) then some OrgVal.errorV
        else match (if (count + 1) * 100 > slots.length * 75
               then tableGrow slots else some slots) with
          | none => none
          | some slots1 =>
            match find_slot slots1 key (org_hash_value key) with
            | none => none
            | some i =>
              some (.tableV (slots1.set i (key, value, org_hash_value key))
                (if isUnused (slotAt slots1 i).1 then count + 1 else count)
                ni)) = _
      have hnv : ¬ ((!is_valid_key key) = true) := by simp [hvk]
      rw [if_neg hnv, if_neg hgrow]
      show (match find_slot slots key (org_hash_value key) with
        | none => none
        | some i =>
          some (OrgVal.tableV (slots.set i (key, value, org_hash_value key))
            (if isUnused (slotAt slots i).1 then count + 1 else count) ni)) = _
      rw [hfind]
    · rw [List.length_set, if_neg hgrow]
    · intro habs
      rw [if_pos (hfresh habs)]
    · intro hk
      rw [if_neg]
      rw [hover hk]
      simp

theorem hasKeyVal_valid {slots : List Slot} {count : Nat} {key v : OrgVal}
    (hinv : Inv slots count) (h : hasKeyVal slots key v) :
    is_valid_key key = true := by
  obtain ⟨i, hi, ⟨hocc, hkey⟩, _⟩ := h
  have hv := (hinv.2.2.2.1 i hi hocc).1
  rw [org_key_equal_eq hkey] at hv
  exact hv

theorem runSets_loop :
    ∀ (ops : List (OrgVal × OrgVal)) (slots : List Slot) (count ni : Nat),
      Inv slots count →
      (∀ p ∈ ops, is_valid_key p.1 = true) →
      (∀ p ∈ ops, keyAbsent slots p.1) →
      List.Pairwise (fun p q => org_key_equal p.1 q.1 = false) ops →
      ∃ slots2,
        (ops.foldlM (fun tv p => org_table_set tv p.1 p.2)
          (OrgVal.tableV slots count ni)) =
          some (.tableV slots2 (count + ops.length) ni) ∧
        Inv slots2 (count + ops.length) ∧
        (∀ p ∈ ops, hasKeyVal slots2 p.1 p.2) ∧
        (∀ key2 v2, (∀ p ∈ ops, org_key_equal key2 p.1 = false) →
          (hasKeyVal slots2 key2 v2 ↔ hasKeyVal slots key2 v2)) := by
  intro ops
  induction ops with
  | nil =>
    intro slots count ni hinv _ _ _
    exact ⟨slots, rfl, by simpa using hinv, by simp,
      fun key2 v2 _ => Iff.rfl⟩
  | cons p rest ih =>
    intro slots count ni hinv hvalid habs hpw
    have hvp : is_valid_key p.1 = true := hvalid p (List.mem_cons_self _ _)
    have habsp : keyAbsent slots p.1 := habs p (List.mem_cons_self _ _)
    obtain ⟨slots1, count1, hset, hinv1, hlen1, hfresh1, hover1, hkv1,
      hpres1⟩ := @table_set_spec slots count ni p.1 p.2 hinv hvp
    have hc1 : count1 = count + 1 := hfresh1 habsp
    subst hc1
    have hpw_head := (List.pairwise_cons.mp hpw).1
    have habs1 : ∀ q ∈ rest, keyAbsent slots1 q.1 := by
      intro q hq
      apply not_hasKey_absent
      rw [hasKey_iff_val]
      rintro ⟨v, hv⟩
      rw [hpres1 q.1 v (by rw [org_key_equal_symm]; exact hpw_head q hq)]
        at hv
      exact keyAbsent_not_hasKey (habs q (List.mem_cons_of_mem _ hq))
        (hasKey_iff_val.mpr ⟨v, hv⟩)
    obtain ⟨slots2, hfold, hinv2, hkv2, hpres2⟩ :=
      ih slots1 (count + 1) ni hinv1
        (fun q hq => hvalid q (List.mem_cons_of_mem _ hq)) habs1
        (List.pairwise_cons.mp hpw).2
    have hcnt : count + (p :: rest).length = count + 1 + rest.length := by
      simp [List.length_cons]
      omega
    refine ⟨slots2, ?_, ?_, ?_, ?_⟩
    · rw [List.foldlM_cons, hset]
      show (rest.foldlM (fun tv p => org_table_set tv p.1 p.2)
        (.tableV slots1 (count + 1) ni)) = _
      rw [hfold, hcnt]
    · rw [hcnt]
      exact hinv2
    · intro q hq
      rcases List.mem_cons.mp hq with rfl | hqr
      · rw [hpres2 q.1 q.2 (fun r hr => hpw_head r hr)]
        exact hkv1
      · exact hkv2 q hqr
    · intro key2 v2 hall
      rw [hpres2 key2 v2 (fun r hr => hall r (List.mem_cons_of_mem _ hr))]
      exact hpres1 key2 v2 (hall p (List.mem_cons_self _ _))

/-- C4: running any sequence of set operations with pairwise-distinct valid
keys on a fresh table succeeds, leaves count equal to the number of keys, and
get returns the stored value for every key; and when an insert would push the
load factor (count+1)/capacity over 75% the table first doubles its capacity
and rehashes, after which every binding stored under a different key is still
retrievable through get. -/
theorem C4_table_count_get_grow :
    (∀ ops : List (OrgVal × OrgVal),
      (∀ p ∈ ops, is_valid_key p.1 = true) →
      List.Pairwise (fun p q => org_key_equal p.1 q.1 = false) ops →
      ∃ slots2,
        runSets ops = some (.tableV slots2 ops.length 0) ∧
        org_table_count (.tableV slots2 ops.length 0) = ops.length ∧
        ∀ p ∈ ops,
          org_table_get (.tableV slots2 ops.length 0) p.1 = some p.2) ∧
    (∀ (slots : List Slot) (count ni : Nat) (key value : OrgVal),
      Inv slots count → is_valid_key key = true →
      (count + 1) * 100 > slots.length * 75 →
      ∃ slots2 count2,
        org_table_set (.tableV slots count ni) key value =
          some (.tableV slots2 count2 ni) ∧
        slots2.length = 2 * slots.length ∧
        Inv slots2 count2 ∧
        ∀ key2 v2, org_key_equal key2 key = false →
          hasKeyVal slots key2 v2 →
          org_table_get (.tableV slots2 count2 ni) key2 = some v2) := by
  constructor
  · intro ops hvalid hpw
    have hinv0 : Inv (List.replicate 8 emptySlot) 0 :=
      inv_replicate (by omega)
    obtain ⟨slots2, hfold, hinv2, hkv2, _⟩ :=
      runSets_loop ops (List.replicate 8 emptySlot) 0 0 hinv0 hvalid
        (fun p _ => keyAbsent_replicate) hpw
    rw [Nat.zero_add] at hfold hinv2
    refine ⟨slots2, ?_, rfl, ?_⟩
    · unfold runSets org_table_new
      exact hfold
    · intro p hp
      exact table_get_present hinv2 (hvalid p hp) (hkv2 p hp)
  · intro slots count ni key value hinv hvk hgrow
    obtain ⟨slots2, count2, hset, hinv2, hlen2, _, _, _, hpres⟩ :=
      @table_set_spec slots count ni key value hinv hvk
    refine ⟨slots2, count2, hset, ?_, hinv2, ?_⟩
    · rw [hlen2, if_pos hgrow]
    · intro key2 v2 hne hkv
      exact table_get_present hinv2 (hasKeyVal_valid hinv hkv)
        ((hpres key2 v2 hne).mpr hkv)

theorem C4_table_count_get_grow_witness :
    (∃ slots2,
      runSets [(OrgVal.small 1, OrgVal.small 7)] =
        some (.tableV slots2 [(OrgVal.small 1, OrgVal.small 7)].length 0) ∧
      org_table_count
        (.tableV slots2 [(OrgVal.small 1, OrgVal.small 7)].length 0) =
        [(OrgVal.small 1, OrgVal.small 7)].length ∧
      ∀ p ∈ [(OrgVal.small 1, OrgVal.small 7)],
        org_table_get
          (.tableV slots2 [(OrgVal.small 1, OrgVal.small 7)].length 0) p.1 =
          some p.2) ∧
    (∃ slots2 count2,
      org_table_set (.tableV [emptySlot] 0 0) (.small 2) (.small 9) =
        some (.tableV slots2 count2 0) ∧
      slots2.length = 2 * [emptySlot].length ∧
      Inv slots2 count2 ∧
      ∀ key2 v2, org_key_equal key2 (.small 2) = false →
        hasKeyVal [emptySlot] key2 v2 →
        org_table_get (.tableV slots2 count2 0) key2 = some v2) :=
  ⟨C4_table_count_get_grow.1 [(OrgVal.small 1, OrgVal.small 7)]
      (by decide) (by simp),
   C4_table_count_get_grow.2 [emptySlot] 0 0 (.small 2) (.small 9)
      (by unfold Inv chainAt; exact ⟨by decide, by decide, by decide,
        by decide, by decide⟩) (by decide) (by decide)⟩

/-- C10: when a key's stored value is the ERROR sentinel, the binding is
unobservable through the lookup interface: get on that key answers ERROR —
exactly what it answers for a valid key absent from the table — and has
answers FALSE, even though the key occupies a slot and contributes to
count. -/
theorem C10_error_value_unobservable {slots : List Slot} {count ni : Nat}
    {key : OrgVal} (hinv : Inv slots count)
    (hkv : hasKeyVal slots key .errorV) :
    org_table_get (.tableV slots count ni) key = some .errorV ∧
    org_table_has (.tableV slots count ni) key = some .boolF ∧
    hasKey slots key ∧ 0 < count ∧
    ∀ key2, is_valid_key key2 = true → keyAbsent slots key2 →
      org_table_get (.tableV slots count ni) key2 = some .errorV ∧
      org_table_has (.tableV slots count ni) key2 = some .boolF := by
  have hvk : is_valid_key key = true := hasKeyVal_valid hinv hkv
  have hget := @table_get_present slots count ni key OrgVal.errorV hinv hvk hkv
  have hhas : org_table_has (.tableV slots count ni) key = some .boolF := by
    unfold org_table_has
    rw [hget]
    rfl
  obtain ⟨i, hi, hki, _⟩ := hkv
  have hposc : 0 < count := by
    rw [hinv.2.1, List.countP_pos_iff]
    refine ⟨slotAt slots i, ?_, ?_⟩
    · rw [slotAt_eq_getElem hi]
      exact List.getElem_mem hi
    · rw [← occAt_eq_slotAt hi]
      exact hki.1
  refine ⟨hget, hhas, ⟨i, hi, hki⟩, hposc, ?_⟩
  intro key2 hvk2 habs2
  have hget2 := @table_get_absent slots count ni key2 hinv hvk2 habs2
  refine ⟨hget2, ?_⟩
  unfold org_table_has
  rw [hget2]
  rfl

theorem C10_error_value_unobservable_witness :
    org_table_get (.tableV [emptySlot,
        (OrgVal.small 0, OrgVal.errorV, org_hash_value (OrgVal.small 0))]
        1 0) (OrgVal.small 0) = some .errorV ∧
    org_table_has (.tableV [emptySlot,
        (OrgVal.small 0, OrgVal.errorV, org_hash_value (OrgVal.small 0))]
        1 0) (OrgVal.small 0) = some .boolF ∧
    hasKey [emptySlot,
        (OrgVal.small 0, OrgVal.errorV, org_hash_value (OrgVal.small 0))]
        (OrgVal.small 0) ∧ 0 < 1 ∧
    ∀ key2, is_valid_key key2 = true →
      keyAbsent [emptySlot,
        (OrgVal.small 0, OrgVal.errorV, org_hash_value (OrgVal.small 0))]
        key2 →
      org_table_get (.tableV [emptySlot,
          (OrgVal.small 0, OrgVal.errorV, org_hash_value (OrgVal.small 0))]
          1 0) key2 = some .errorV ∧
      org_table_has (.tableV [emptySlot,
          (OrgVal.small 0, OrgVal.errorV, org_hash_value (OrgVal.small 0))]
          1 0) key2 = some .boolF :=
  C10_error_value_unobservable (by unfold Inv chainAt; exact ⟨by decide,
      by decide, by decide, by decide, by decide⟩)
    ⟨1, by decide, ⟨by decide, by decide⟩, rfl⟩

end Org
